import Mathlib

/-!
# Verification of the OmniSciDB fragment: baseline join hash table and foreign storage cache

This development shallowly embeds two subsystems of the repository fragment:

* the baseline multi-column equi-join hash-table orchestrator
  (`BaselineJoinHashTable` in `QueryEngine/JoinHashTable/BaselineJoinHashTable.cpp`,
  present in the fragment), together with the process-wide `HashTypeCache`;
* the foreign storage cache and managers
  (`DataMgr/ForeignStorage/ForeignStorageCache.cpp`,
  `DataMgr/ForeignStorage/ForeignStorageMgr.cpp`,
  `DataMgr/ForeignStorage/CachingForeignStorageMgr.cpp`).

C++ integer caveats are modelled as follows: `size_t` counters are `Nat`; the
development proves (as part of its invariants) that every `size_t` subtraction
performed by the code has a subtrahend no larger than the minuend on the states
the theorems quantify over, so `Nat` truncated subtraction coincides with the
C++ wrap-around semantics there.  The one place where a `size_t` multiplication
could overflow (`2 * getNumTuplesUpperBound()` in
`BaselineJoinHashTable::getInstance`) is modelled with an explicit `% 2^64`.

Components that the fragment only calls but does not define (the page-backed
`GlobalFileMgr`, the `LRUEvictionAlgorithm`, the `BaselineJoinHashTableBuilder`)
are modelled from the specification; each such definition carries a doc comment
starting with `Modelled from the spec:`.
-/

namespace OmniSci

/-- A chunk key is an ordered sequence of small integers
`[db_id, table_id, column_id, fragment_id, (sub_id)]` (`ChunkKey` in the C++
sources, a `std::vector<int>`). -/
abbrev ChunkKey := List Int

/-- `std::numeric_limits<int>::max()`. -/
def intMax : Int := 2147483647

/-- `std::numeric_limits<int32_t>::max()` as a natural number. -/
def int32MaxNat : Nat := 2147483647

/-- Lexicographic strict order on chunk keys: `operator<` of `std::vector<int>`
(a proper prefix is smaller than its extensions). -/
def keyLt : ChunkKey → ChunkKey → Bool
  | [], [] => false
  | [], _ :: _ => true
  | _ :: _, [] => false
  | a :: as, b :: bs => if a < b then true else if b < a then false else keyLt as bs

/-- `get_table_key`: the `[db_id, table_id]` prefix of a chunk key. -/
def tableKeyOf (k : ChunkKey) : ChunkKey := k.take 2

/-- `is_table_key`: a chunk key that identifies a table. -/
def isTableKey (k : ChunkKey) : Bool := k.length = 2

/-- The range of chunk keys erased by `clearForTablePrefix` and matched by
`iterate_over_matching_prefix`: the keys `k` lying (lexicographically) between
the prefix and the prefix extended with `std::numeric_limits<int>::max()`,
i.e. `lower_bound(prefix) ≤ k < upper_bound(prefix ++ [INT_MAX])` over the
ordered `std::set`. -/
def inKeyRange (pfx k : ChunkKey) : Bool :=
  !keyLt k pfx && !keyLt (pfx ++ [intMax]) k

/-- Ceiling division on naturals, written in the C++ sources as
`(a + (b - 1)) / b`. -/
def ceilDivNat (a b : Nat) : Nat := (a + (b - 1)) / b

section JoinHashTable

/-- `JoinHashTableInterface::HashType`. -/
inductive HashType where
  | OneToOne
  | OneToMany
  | ManyToMany
deriving DecidableEq, Repr

/-- `layoutRequiresAdditionalBuffers`.
Modelled from the spec: the predicate itself is declared in
`JoinHashTableInterface.h`, which is not part of the fragment; per the spec the
offsets/counts/payload sub-regions are present exactly when the layout is not
`OneToOne`, i.e. for the `OneToMany` and `ManyToMany` layouts. -/
def layoutRequiresAdditionalBuffers (l : HashType) : Bool :=
  match l with
  | .OneToOne => false
  | .OneToMany => true
  | .ManyToMany => true

/-- The sizing state of a `BaselineJoinHashTable`: `entry_count_`,
`getKeyComponentCount()` (the number of inner/outer pairs) and
`getKeyComponentWidth()` (4 or 8 bytes). -/
structure HashTableDims where
  entryCount : Nat
  keyComponentCount : Nat
  keyComponentWidth : Nat
  layout : HashType

/-- `BaselineJoinHashTable::getKeyBufferSize`. -/
def getKeyBufferSize (d : HashTableDims) : Nat :=
  if layoutRequiresAdditionalBuffers d.layout then
    d.entryCount * d.keyComponentCount * d.keyComponentWidth
  else
    d.entryCount * (d.keyComponentCount + 1) * d.keyComponentWidth

/-- `BaselineJoinHashTable::getComponentBufferSize` (`entry_count_ * sizeof(int32_t)`). -/
def getComponentBufferSize (d : HashTableDims) : Nat :=
  d.entryCount * 4

/-- `BaselineJoinHashTable::offsetBufferOff`. -/
def offsetBufferOff (d : HashTableDims) : Nat :=
  getKeyBufferSize d

/-- `BaselineJoinHashTable::countBufferOff`. -/
def countBufferOff (d : HashTableDims) : Nat :=
  if layoutRequiresAdditionalBuffers d.layout then
    offsetBufferOff d + getComponentBufferSize d
  else
    getKeyBufferSize d

/-- `BaselineJoinHashTable::payloadBufferOff`. -/
def payloadBufferOff (d : HashTableDims) : Nat :=
  if layoutRequiresAdditionalBuffers d.layout then
    countBufferOff d + getComponentBufferSize d
  else
    getKeyBufferSize d

/-- The process-wide `HashTypeCache::hash_type_cache_`, a map from the
chunk keys of a composite key to the last recorded layout. -/
def HTCache := List ChunkKey → Option HashType

/-- `HashTypeCache::set`: records a layout for the chunk keys, unless some
chunk key has a negative table id (`chunk_key[1] < 0`, temporary tables), in
which case the cache is left unchanged. -/
def htCacheSet (c : HTCache) (key : List ChunkKey) (ht : HashType) : HTCache :=
  if key.any (fun ck => ck.getD 1 0 < 0) then c
  else fun k => if k = key then some ht else c k

/-- `HashTypeCache::get`: returns the recorded layout and `true`, or
`(OneToOne, false)` when the keys were never recorded. -/
def htCacheGet (c : HTCache) (key : List ChunkKey) : HashType × Bool :=
  match c key with
  | none => (HashType.OneToOne, false)
  | some ht => (ht, true)

/-- The exceptions that can escape `reifyWithLayout`
(`BaselineJoinHashTable::reify` catches them as `const std::exception&`). -/
inductive BuildErr where
  | tableMustBeReplicated
  | hashJoinFail
  | columnarConversionNotSupported
  | outOfMemory
  | otherStd
deriving DecidableEq, Repr

/-- Result of `BaselineJoinHashTable::reify`: the layout of the built table
(or the escaping exception), the hash-type cache after the call, whether
`freeHashBufferMemory` ran inside `reify`'s catch block, and whether the
one-to-many retry was taken. -/
structure ReifyResult where
  outcome : Except BuildErr HashType
  cache : HTCache
  freedInReify : Bool
  retried : Bool

/-- `BaselineJoinHashTable::reify`.  `build layout` abstracts
`reifyWithLayout(layout)` (fetch columns, size the table, build per device):
it returns `none` on success and the escaping exception otherwise.  The
control flow — the `HashTypeCache` override of the preferred layout, the
overlaps branch that rethrows without retrying, and the catch-all that frees
the buffers, records `OneToMany` and retries — is translated from the source. -/
def reify (build : HashType → Option BuildErr) (overlaps outerIsArray : Bool)
    (preferred : HashType) (cacheKeyChunks : List ChunkKey) (c : HTCache) :
    ReifyResult :=
  if overlaps then
    match build (if outerIsArray then HashType.ManyToMany
        else HashType.OneToMany) with
    | none => ⟨.ok (if outerIsArray then HashType.ManyToMany
        else HashType.OneToMany), c, false, false⟩
    | some e => ⟨.error e, c, false, false⟩
  else
    match build (if (htCacheGet c cacheKeyChunks).2 then
        (htCacheGet c cacheKeyChunks).1 else preferred) with
    | none => ⟨.ok (if (htCacheGet c cacheKeyChunks).2 then
        (htCacheGet c cacheKeyChunks).1 else preferred), c, false, false⟩
    | some _ =>
      match build HashType.OneToMany with
      | none => ⟨.ok HashType.OneToMany,
          htCacheSet c cacheKeyChunks HashType.OneToMany, true, true⟩
      | some e => ⟨.error e,
          htCacheSet c cacheKeyChunks HashType.OneToMany, true, true⟩

/-- The outcomes of `BaselineJoinHashTable::getInstance` visible to its caller:
a raw `TableMustBeReplicated` (thrown by `checkHashJoinReplicationConstraint`
before the `try` block), `TooManyHashEntries`, a `HashJoinFail`, or a
`std::runtime_error` produced by one of the catch clauses. -/
inductive GetInstanceErr where
  | tooManyHashEntries
  | tableMustBeReplicated
  | hashJoinFail
  | runtimeError
deriving DecidableEq, Repr

/-- The environment of a `getInstance` call: the inner table's tuple upper
bound, the cluster/replication facts consulted by
`checkHashJoinReplicationConstraint`, the overlaps flags and the chunk keys of
the composite key. -/
structure JoinEnv where
  numTuplesUpperBound : Nat
  gCluster : Bool
  innerTableId : Int
  shardCount : Nat
  innerTableReplicated : Bool
  overlaps : Bool
  outerIsArray : Bool
  cacheKeyChunks : List ChunkKey

/-- `BaselineJoinHashTable::checkHashJoinReplicationConstraint`: throws
`TableMustBeReplicated` iff running in cluster mode on a physical,
non-sharded, non-replicated inner table. -/
def replicationConstraintViolated (env : JoinEnv) : Bool :=
  env.gCluster && env.innerTableId ≥ 0 && env.shardCount = 0 &&
    !env.innerTableReplicated

/-- Result of `getInstance`: the error (`none` on success), the layout on
success, the hash-type cache afterwards, and whether `getInstance`'s own catch
clauses called `freeHashBufferMemory`. -/
structure GetInstanceResult where
  err : Option GetInstanceErr
  layout : Option HashType
  cache : HTCache
  freedInGetInstance : Bool

/-- `BaselineJoinHashTable::getInstance`.  `total_entries` is computed as
`2 * getNumTuplesUpperBound()` in `size_t` arithmetic, hence the `% 2^64`.
The replication check runs before the `try` block, so its
`TableMustBeReplicated` propagates unwrapped; exceptions escaping `reify` are
mapped by the catch clauses (`TableMustBeReplicated` and `HashJoinFail` free
the buffers and rethrow a wrapped error, the other clauses only wrap). -/
def getInstance (env : JoinEnv) (build : HashType → Option BuildErr)
    (preferred : HashType) (c : HTCache) : GetInstanceResult :=
  if 2 * env.numTuplesUpperBound % 2 ^ 64 > int32MaxNat then
    ⟨some .tooManyHashEntries, none, c, false⟩
  else if replicationConstraintViolated env then
    ⟨some .tableMustBeReplicated, none, c, false⟩
  else
    match reify build env.overlaps env.outerIsArray preferred
        env.cacheKeyChunks c with
    | ⟨.ok l, cc, _, _⟩ => ⟨none, some l, cc, false⟩
    | ⟨.error .tableMustBeReplicated, cc, _, _⟩ =>
        ⟨some .runtimeError, none, cc, true⟩
    | ⟨.error .hashJoinFail, cc, _, _⟩ => ⟨some .hashJoinFail, none, cc, true⟩
    | ⟨.error .columnarConversionNotSupported, cc, _, _⟩ =>
        ⟨some .hashJoinFail, none, cc, false⟩
    | ⟨.error .outOfMemory, cc, _, _⟩ => ⟨some .hashJoinFail, none, cc, false⟩
    | ⟨.error .otherStd, cc, _, _⟩ => ⟨some .runtimeError, none, cc, false⟩

/-- Whether a list of composite-key rows contains a duplicated composite key. -/
def hasDuplicateKey (rows : List (List Int)) : Bool :=
  !rows.Nodup

/-- Modelled from the spec: `BaselineJoinHashTableBuilder::initHashTableOnCpu`
(`BaselineHashTableBuilder.h` is not part of the fragment).  Per the spec, a
`OneToOne` build fails exactly when the input rows contain a duplicated
composite key (the duplicate violates the one-slot-per-key layout and the
failure surfaces as a `HashJoinFail` thrown by `reifyForDevice`); the
multi-entry layouts accommodate duplicates and succeed. -/
def buildOutcomeForRows (rows : List (List Int)) (l : HashType) :
    Option BuildErr :=
  if l = HashType.OneToOne && hasDuplicateKey rows then
    some .hashJoinFail
  else
    none

end JoinHashTable

section JoinHashTableTheorems

/-- **C8.** For every entry count, key component count and key component width
in {4, 8}: the key region is `entry_count × (key_component_count + 1) × width`
bytes under `OneToOne` (the extra trailing slot per entry) and
`entry_count × key_component_count × width` bytes otherwise; the offsets
region starts at the end of the key region, the counts region
`entry_count × 4` bytes after it and the payload region `entry_count × 4`
bytes after that; for `OneToOne` all three offsets equal the key buffer
size. -/
theorem claim_C8 (d : HashTableDims)
    (_hw : d.keyComponentWidth = 4 ∨ d.keyComponentWidth = 8) :
    (d.layout = HashType.OneToOne →
      getKeyBufferSize d =
        d.entryCount * (d.keyComponentCount + 1) * d.keyComponentWidth ∧
      offsetBufferOff d = getKeyBufferSize d ∧
      countBufferOff d = getKeyBufferSize d ∧
      payloadBufferOff d = getKeyBufferSize d) ∧
    (d.layout ≠ HashType.OneToOne →
      getKeyBufferSize d =
        d.entryCount * d.keyComponentCount * d.keyComponentWidth ∧
      offsetBufferOff d = getKeyBufferSize d ∧
      countBufferOff d = offsetBufferOff d + d.entryCount * 4 ∧
      payloadBufferOff d = countBufferOff d + d.entryCount * 4) := by
  constructor
  · intro h
    simp [getKeyBufferSize, offsetBufferOff, countBufferOff, payloadBufferOff,
      layoutRequiresAdditionalBuffers, h]
  · intro h
    cases hl : d.layout with
    | OneToOne => exact absurd hl h
    | OneToMany =>
      simp [getKeyBufferSize, offsetBufferOff, countBufferOff,
        payloadBufferOff, getComponentBufferSize,
        layoutRequiresAdditionalBuffers, hl]
    | ManyToMany =>
      simp [getKeyBufferSize, offsetBufferOff, countBufferOff,
        payloadBufferOff, getComponentBufferSize,
        layoutRequiresAdditionalBuffers, hl]

/-- Witness for C8 at `entry_count = 8`, `key_component_count = 2`,
`width = 4`, layout `OneToOne`. -/
theorem claim_C8_witness :
    countBufferOff ⟨8, 2, 4, HashType.OneToOne⟩ =
      getKeyBufferSize ⟨8, 2, 4, HashType.OneToOne⟩ :=
  ((claim_C8 ⟨8, 2, 4, HashType.OneToOne⟩ (Or.inl rfl)).1 rfl).2.2.1

/-- **C5.** For every join whose inner table's tuple upper bound `N` satisfies
`2 × N > INT32_MAX`, `getInstance` throws `TooManyHashEntries` before
constructing the hash table; for `2 × N ≤ INT32_MAX` it never produces that
exception.  (`2 × N` is computed in `size_t`; the hypothesis `N < 2^63` rules
out the physically unrealisable wrap-around region.) -/
theorem claim_C5 (env : JoinEnv) (build : HashType → Option BuildErr)
    (preferred : HashType) (c : HTCache)
    (hN : env.numTuplesUpperBound < 2 ^ 63) :
    (2 * env.numTuplesUpperBound > int32MaxNat →
      (getInstance env build preferred c).err =
        some GetInstanceErr.tooManyHashEntries) ∧
    (2 * env.numTuplesUpperBound ≤ int32MaxNat →
      (getInstance env build preferred c).err ≠
        some GetInstanceErr.tooManyHashEntries) := by
  have hmod : 2 * env.numTuplesUpperBound % 2 ^ 64 =
      2 * env.numTuplesUpperBound := by
    apply Nat.mod_eq_of_lt
    calc 2 * env.numTuplesUpperBound < 2 * 2 ^ 63 := by omega
    _ = 2 ^ 64 := by norm_num
  constructor
  · intro hgt
    unfold getInstance
    rw [hmod, if_pos hgt]
  · intro hle
    unfold getInstance
    rw [hmod, if_neg (not_lt.mpr hle)]
    split
    · simp
    · split <;> simp

/-- Witness for C5: with `N = 2^31` tuples (so `2 × N = 2^32 > INT32_MAX`),
`getInstance` reports `TooManyHashEntries`. -/
theorem claim_C5_witness :
    (getInstance ⟨2147483648, false, 1, 0, false, false, false, [[1, 5]]⟩
        (fun _ => none) HashType.OneToOne (fun _ => none)).err =
      some GetInstanceErr.tooManyHashEntries :=
  (claim_C5 ⟨2147483648, false, 1, 0, false, false, false, [[1, 5]]⟩
      (fun _ => none) HashType.OneToOne (fun _ => none) (by norm_num)).1
    (by norm_num [int32MaxNat])

/-- **C2, counterexample.** The claim fails for temporary tables: with a
chunk key whose table id is negative (`[[0, -1]]`), a duplicated composite
key (`[[1], [1]]`) still escalates the layout to `OneToMany`, but
`HashTypeCache::set` returns without recording (it skips keys with
`chunk_key[1] < 0`), so a subsequent `HashTypeCache::get` returns
`(OneToOne, false)`, not `(OneToMany, true)`. -/
theorem claim_C2_counterexample :
    (reify (buildOutcomeForRows [[1], [1]]) false false HashType.OneToOne
        [[0, -1]] (fun _ => none)).retried = true ∧
    htCacheGet
        (reify (buildOutcomeForRows [[1], [1]]) false false HashType.OneToOne
          [[0, -1]] (fun _ => none)).cache [[0, -1]] =
      (HashType.OneToOne, false) := by
  exact ⟨rfl, rfl⟩

/-- **C2, amended.** For every non-overlaps input with at least one duplicated
composite key, *whose chunk keys all have non-negative table ids* and whose
entry in the hash-type cache is not `ManyToMany` (non-overlaps builds never
record `ManyToMany`), `reify(preferred = OneToOne)` terminates with a
`OneToMany` layout and a subsequent `HashTypeCache::get` returns
`(OneToMany, true)`; when the first attempt actually ran with `OneToOne`
(cache empty or caching `OneToOne`), the build failure was caught, the hash
buffers freed and the build retried. -/
theorem claim_C2 (rows : List (List Int)) (chunkKeys : List ChunkKey)
    (c : HTCache)
    (hdup : hasDuplicateKey rows = true)
    (hids : ∀ ck ∈ chunkKeys, 0 ≤ ck.getD 1 0)
    (hc : c chunkKeys ≠ some HashType.ManyToMany) :
    (reify (buildOutcomeForRows rows) false false HashType.OneToOne
        chunkKeys c).outcome = Except.ok HashType.OneToMany ∧
    htCacheGet
        (reify (buildOutcomeForRows rows) false false HashType.OneToOne
          chunkKeys c).cache chunkKeys = (HashType.OneToMany, true) ∧
    ((c chunkKeys = none ∨ c chunkKeys = some HashType.OneToOne) →
      (reify (buildOutcomeForRows rows) false false HashType.OneToOne
          chunkKeys c).freedInReify = true ∧
      (reify (buildOutcomeForRows rows) false false HashType.OneToOne
          chunkKeys c).retried = true) := by
  have hany : chunkKeys.any (fun ck => decide (ck.getD 1 0 < 0)) = false := by
    simp only [List.any_eq_false, decide_eq_true_eq, not_lt]
    intro ck hck
    exact hids ck hck
  have hset : htCacheSet c chunkKeys HashType.OneToMany chunkKeys =
      some HashType.OneToMany := by
    unfold htCacheSet
    rw [hany]
    simp
  have hgetset : htCacheGet (htCacheSet c chunkKeys HashType.OneToMany)
      chunkKeys = (HashType.OneToMany, true) := by
    unfold htCacheGet
    rw [hset]
  cases hck : c chunkKeys with
  | none =>
    have hr : reify (buildOutcomeForRows rows) false false HashType.OneToOne
        chunkKeys c =
        ⟨Except.ok HashType.OneToMany,
          htCacheSet c chunkKeys HashType.OneToMany, true, true⟩ := by
      unfold reify
      simp [htCacheGet, hck, buildOutcomeForRows, hdup]
    rw [hr]
    exact ⟨rfl, hgetset, fun _ => ⟨rfl, rfl⟩⟩
  | some ht =>
    cases ht with
    | OneToOne =>
      have hr : reify (buildOutcomeForRows rows) false false
          HashType.OneToOne chunkKeys c =
          ⟨Except.ok HashType.OneToMany,
            htCacheSet c chunkKeys HashType.OneToMany, true, true⟩ := by
        unfold reify
        simp [htCacheGet, hck, buildOutcomeForRows, hdup]
      rw [hr]
      exact ⟨rfl, hgetset, fun _ => ⟨rfl, rfl⟩⟩
    | OneToMany =>
      have hget : htCacheGet c chunkKeys = (HashType.OneToMany, true) := by
        unfold htCacheGet
        rw [hck]
      have hr : reify (buildOutcomeForRows rows) false false
          HashType.OneToOne chunkKeys c =
          ⟨Except.ok HashType.OneToMany, c, false, false⟩ := by
        unfold reify
        simp [htCacheGet, hck, buildOutcomeForRows]
      rw [hr]
      exact ⟨rfl, hget, fun h => by rcases h with h | h <;> simp at h⟩
    | ManyToMany => exact absurd hck hc

/-- Witness for C2 (amended): rows `[[1], [1]]`, chunk keys `[[1, 7]]`, empty
cache. -/
theorem claim_C2_witness :
    (reify (buildOutcomeForRows [[1], [1]]) false false HashType.OneToOne
        [[1, 7]] (fun _ => none)).outcome = Except.ok HashType.OneToMany :=
  (claim_C2 [[1], [1]] [[1, 7]] (fun _ => none) (by decide)
    (by intro ck hck; simp at hck; simp [hck]) (by simp)).1

/-- **C4, counterexample.** A `TableMustBeReplicated` raised by the first
(non-overlaps) build attempt does *not* bypass the retry: `reify`'s catch
clause is `catch (const std::exception&)`, so it frees the buffers, records
`OneToMany` in `HashTypeCache` and retries with `OneToMany` — contradicting
the claim that reify neither retries nor records. -/
theorem claim_C4_counterexample :
    (reify
        (fun l => if l = HashType.OneToOne then
          some BuildErr.tableMustBeReplicated else none)
        false false HashType.OneToOne [[1, 5]] (fun _ => none)).retried =
      true ∧
    htCacheGet
        (reify
          (fun l => if l = HashType.OneToOne then
            some BuildErr.tableMustBeReplicated else none)
          false false HashType.OneToOne [[1, 5]] (fun _ => none)).cache
        [[1, 5]] = (HashType.OneToMany, true) := by
  exact ⟨rfl, rfl⟩

/-- **C4, amended.** Only a `TableMustBeReplicated` that *escapes* `reify`
(from the `OneToMany` retry, or from the overlaps path, which rethrows without
retrying; an exception from the first non-overlaps attempt is caught by
`reify`'s catch-all, which records `OneToMany` and retries) reaches
`getInstance`'s catch clause, which frees the hash buffer memory and rethrows
it as a user-visible runtime error. -/
theorem claim_C4 (env : JoinEnv) (build : HashType → Option BuildErr)
    (preferred : HashType) (c : HTCache)
    (hsz : 2 * env.numTuplesUpperBound % 2 ^ 64 ≤ int32MaxNat)
    (hrep : replicationConstraintViolated env = false)
    (hesc : (reify build env.overlaps env.outerIsArray preferred
        env.cacheKeyChunks c).outcome =
      Except.error BuildErr.tableMustBeReplicated) :
    (getInstance env build preferred c).err =
      some GetInstanceErr.runtimeError ∧
    (getInstance env build preferred c).freedInGetInstance = true := by
  unfold getInstance
  rw [if_neg (not_lt.mpr hsz), hrep]
  simp only [Bool.false_eq_true, if_false]
  generalize hg : reify build env.overlaps env.outerIsArray preferred
    env.cacheKeyChunks c = r at hesc ⊢
  obtain ⟨out, cc, f, rt⟩ := r
  cases out with
  | ok l => exact absurd hesc (by simp)
  | error e =>
    have he : e = BuildErr.tableMustBeReplicated := by simpa using hesc
    subst he
    exact ⟨rfl, rfl⟩

/-- Witness for C4 (amended): a build that throws `TableMustBeReplicated` on
every layout attempt, non-overlaps, no replication violation. -/
theorem claim_C4_witness :
    (getInstance ⟨4, false, 1, 0, false, false, false, [[1, 5]]⟩
        (fun _ => some BuildErr.tableMustBeReplicated) HashType.OneToOne
        (fun _ => none)).err = some GetInstanceErr.runtimeError :=
  (claim_C4 ⟨4, false, 1, 0, false, false, false, [[1, 5]]⟩
      (fun _ => some BuildErr.tableMustBeReplicated) HashType.OneToOne
      (fun _ => none) (by norm_num [int32MaxNat]) rfl rfl).1

end JoinHashTableTheorems

section ForeignStorageCacheModel

/-- Pointwise update of a `Nat`-valued map over chunk keys. -/
def updNat (f : ChunkKey → Nat) (k : ChunkKey) (v : Nat) : ChunkKey → Nat :=
  fun x => if x = k then v else f x

/-- Pointwise update of a `Bool`-valued map over chunk keys. -/
def updBool (f : ChunkKey → Bool) (k : ChunkKey) (v : Bool) : ChunkKey → Bool :=
  fun x => if x = k then v else f x

/-- `std::set` insertion (`emplace`): add the key unless already present. -/
def insertKey (k : ChunkKey) (l : List ChunkKey) : List ChunkKey :=
  if k ∈ l then l else l ++ [k]

/-- `std::set` / LRU-queue erasure: remove the (first) occurrence of the
key.  (The lists modelling `std::set`s and LRU queues are duplicate-free, so
this is exact erasure.) -/
def eraseKey : List ChunkKey → ChunkKey → List ChunkKey
  | [], _ => []
  | x :: xs, k => if x = k then xs else x :: eraseKey xs k

/-- `TableEvictionTracker`: the per-table LRU algorithm state and
`num_pages_`.  Modelled from the spec: `LRUEvictionAlgorithm` is not part of
the fragment; per the spec it is a strict LRU queue over chunk keys, here with
the head as the least-recently-used entry. -/
structure TableEvictionTracker where
  queue : List ChunkKey
  numPages : Nat
deriving DecidableEq

/-- `LRUEvictionAlgorithm::touchChunk`: move the key to the most-recently-used
end (adding it if absent).  Modelled from the spec. -/
def touchChunkQueue (q : List ChunkKey) (k : ChunkKey) : List ChunkKey :=
  eraseKey q k ++ [k]

/-- The state of a `ForeignStorageCache` together with its page-backed
`GlobalFileMgr`.  The file manager (spec component C2) is not part of the
fragment; it is modelled from the spec as a map from chunk keys to a buffer
(existence flag, byte size, page count), with `fmKeys` enumerating the keys of
existing buffers.  `maxFileNPages` is the file-manager constant
`MAX_FILE_N_PAGES`; `pageSize` is `getDefaultPageSize()`. -/
structure CacheState where
  cachedChunks : List ChunkKey
  cachedMetadata : List ChunkKey
  trackers : List (ChunkKey × TableEvictionTracker)
  fmExists : ChunkKey → Bool
  fmBytes : ChunkKey → Nat
  fmPages : ChunkKey → Nat
  fmKeys : List ChunkKey
  maxPagesPerTable : Nat
  pageSize : Nat
  maxFileNPages : Nat
  maxCachedBytes : Nat
  numChunksAdded : Nat
  numMetadataAdded : Nat

/-- `eviction_tracker_map_.find`. -/
def lookupTracker : List (ChunkKey × TableEvictionTracker) → ChunkKey →
    Option TableEvictionTracker
  | [], _ => none
  | (t', tr) :: rest, t => if t' = t then some tr else lookupTracker rest t

/-- In-place mutation of an existing tracker map entry (C++ mutates the
tracker through a reference). -/
def updateTracker : List (ChunkKey × TableEvictionTracker) → ChunkKey →
    TableEvictionTracker → List (ChunkKey × TableEvictionTracker)
  | [], _, _ => []
  | (t', tr') :: rest, t, tr =>
      if t' = t then (t, tr) :: rest else (t', tr') :: updateTracker rest t tr

/-- `ForeignStorageCache::createTrackerMapEntryIfNoneExists`.  The
`CHECK(is_table_key)` failure is modelled as leaving the state unchanged (a
failed `CHECK` kills the process, so no further transition observes the
state). -/
def createTrackerMapEntryIfNoneExists (st : CacheState) (t : ChunkKey) :
    CacheState :=
  if isTableKey t then
    match lookupTracker st.trackers t with
    | some _ => st
    | none => { st with trackers := st.trackers ++ [(t, ⟨[], 0⟩)] }
  else st

/-- The state threaded through the eviction loop of
`insertChunkIntoEvictionAlg` / `setLimit`: the current table's LRU queue and
`num_pages_`, plus the global `cached_chunks_` set and file-manager page
counts touched by `eraseChunk`. -/
structure EvictCtx where
  queue : List ChunkKey
  np : Nat
  cached : List ChunkKey
  pg : ChunkKey → Nat

/-- The eviction loop
`while (num_pages_ + needed > max) eraseChunk(evictNextChunk(), tracker)`.
`evictNextChunk` pops the least-recently-used key; `eraseChunk` returns early
when the key is not in `cached_chunks_`, and otherwise subtracts the file
buffer's freed pages from `num_pages_` and erases the key.  The returned flag
is `false` when `evictNextChunk` was called on an empty queue (it throws
`NoEntryFoundException` in that case, leaving the partially evicted state
behind).  The C++ subtraction is on `size_t`; the invariants below show the
subtrahend never exceeds the minuend on the states the theorems cover, so
`Nat` truncated subtraction coincides. -/
def evictLoop (needed mx : Nat) (queue : List ChunkKey) (np : Nat)
    (cached : List ChunkKey) (pg : ChunkKey → Nat) : EvictCtx × Bool :=
  match queue with
  | [] => (⟨[], np, cached, pg⟩, decide (np + needed ≤ mx))
  | f :: rest =>
    if np + needed > mx then
      if f ∈ cached then
        evictLoop needed mx rest (np - pg f) (eraseKey cached f) (updNat pg f 0)
      else
        evictLoop needed mx rest np cached pg
    else (⟨f :: rest, np, cached, pg⟩, true)

/-- The three ways `insertChunkIntoEvictionAlg` can end: a successful insert
(returns `true`), a rejection because the chunk alone exceeds the table
budget (returns `false`), or a process abort (failed `CHECK` / uncaught
`NoEntryFoundException`). -/
inductive InsRes where
  | inserted
  | rejected
  | aborted
deriving DecidableEq

/-- `ForeignStorageCache::insertChunkIntoEvictionAlg`: compute
`num_pages_for_chunk = ceil(chunk_size / page_size)`; reject outright when it
alone exceeds `max_pages_per_table_`; otherwise evict same-table chunks until
the new total fits, touch the LRU and record the chunk. -/
def insertChunkIntoEvictionAlg (st : CacheState) (key : ChunkKey)
    (chunkSize : Nat) : InsRes × CacheState :=
  match lookupTracker st.trackers (tableKeyOf key) with
  | none => (.aborted, st)
  | some tr =>
    if ceilDivNat chunkSize st.pageSize > st.maxPagesPerTable then
      (.rejected, st)
    else
      match evictLoop (ceilDivNat chunkSize st.pageSize) st.maxPagesPerTable
          tr.queue tr.numPages st.cachedChunks st.fmPages with
      | (ctx, false) =>
        (.aborted, { st with
          trackers := updateTracker st.trackers (tableKeyOf key)
            ⟨ctx.queue, ctx.np⟩,
          cachedChunks := ctx.cached,
          fmPages := ctx.pg })
      | (ctx, true) =>
        (.inserted, { st with
          trackers := updateTracker st.trackers (tableKeyOf key)
            ⟨touchChunkQueue ctx.queue key,
              ctx.np + ceilDivNat chunkSize st.pageSize⟩,
          cachedChunks := insertKey key ctx.cached,
          fmPages := ctx.pg })

/-- Modelled from the spec: `GlobalFileMgr::putBuffer` persists the buffer in
the page-backed file manager (its page count becomes
`ceil(size / page_size)`). -/
def putBufferFM (st : CacheState) (key : ChunkKey) (size : Nat) : CacheState :=
  { st with
    fmExists := updBool st.fmExists key true,
    fmBytes := updNat st.fmBytes key size,
    fmPages := updNat st.fmPages key (ceilDivNat size st.pageSize),
    fmKeys := insertKey key st.fmKeys }

/-- `ForeignStorageCache::cacheChunk`: the chunk (of `bufSize` bytes) is
persisted via `putBuffer` + `checkpoint` and its key recorded in
`cached_metadata_` only inside the branch where `insertChunkIntoEvictionAlg`
returned `true` — the source's TODO notes the metadata record "needs to
happen even if insertChunkIntoEvictionAlg() fails", which the code does not
do. -/
def cacheChunk (st : CacheState) (key : ChunkKey) (bufSize : Nat) :
    CacheState :=
  match insertChunkIntoEvictionAlg st key bufSize with
  | (.inserted, st1) =>
    { putBufferFM st1 key bufSize with
      numChunksAdded := st1.numChunksAdded + 1,
      cachedMetadata := insertKey key st1.cachedMetadata }
  | (.rejected, st1) => st1
  | (.aborted, st1) => st1

/-- The per-key loop of `ForeignStorageCache::cacheTableChunks`: per key it
checks the table prefix and `isBufferOnDevice` (`CHECK`s, modelled as
stopping), increments `num_chunks_added_` and inserts the already-persisted
buffer (of size `fmBytes key`) into the eviction algorithm; an exception from
the insertion aborts the remaining iterations. -/
def cacheTableChunksLoop (t0 : ChunkKey) (st : CacheState) :
    List ChunkKey → CacheState
  | [] => st
  | k :: rest =>
    if tableKeyOf k = t0 ∧ st.fmExists k = true then
      match insertChunkIntoEvictionAlg
          { st with numChunksAdded := st.numChunksAdded + 1 } k
          (st.fmBytes k) with
      | (.aborted, st1) => st1
      | (.inserted, st1) => cacheTableChunksLoop t0 st1 rest
      | (.rejected, st1) => cacheTableChunksLoop t0 st1 rest
    else st

/-- `ForeignStorageCache::cacheTableChunks`: all keys must share the first
key's table; creates the table's tracker entry if absent, then inserts every
key; a single `checkpoint(db, table)` at the end (persistence fence, no
state change in the model). -/
def cacheTableChunks (st : CacheState) (keys : List ChunkKey) : CacheState :=
  match keys with
  | [] => st
  | k0 :: _ =>
    cacheTableChunksLoop (tableKeyOf k0)
      (createTrackerMapEntryIfNoneExists st (tableKeyOf k0)) keys

/-- `ForeignStorageCache::getChunkBuffersForCaching` followed by the data
wrapper's `populateChunkBuffers`: for each requested chunk the cache `CHECK`s
that it is not in `cached_chunks_`, that its file buffer exists
(`isBufferOnDevice`) and has no pages, resets it, and hands it to the wrapper,
which writes the chunk's bytes into it.  A failed `CHECK` is modelled as
leaving the state unchanged. -/
def populateChunkBuffers (st : CacheState) (chunks : List (ChunkKey × Nat)) :
    CacheState :=
  if chunks.all (fun p =>
      decide (p.1 ∉ st.cachedChunks) && st.fmExists p.1 &&
        decide (st.fmPages p.1 = 0)) then
    chunks.foldl (fun s p =>
      { s with
        fmBytes := updNat s.fmBytes p.1 p.2,
        fmPages := updNat s.fmPages p.1 (ceilDivNat p.2 s.pageSize) }) st
  else st

/-- `ForeignStorageCache::eraseChunkByIterator`: remove the chunk from its
table's LRU, subtract the file buffer's freed pages from the tracker and
erase it from `cached_chunks_`.  (`eviction_tracker_map_.at` would throw for
a missing tracker; that case — unreachable for cached chunks under the
representation invariant — is modelled as leaving the state unchanged.) -/
def eraseChunkByIt (st : CacheState) (k : ChunkKey) : CacheState :=
  match lookupTracker st.trackers (tableKeyOf k) with
  | none => st
  | some tr =>
    { st with
      trackers := updateTracker st.trackers (tableKeyOf k)
        ⟨eraseKey tr.queue k, tr.numPages - st.fmPages k⟩,
      fmPages := updNat st.fmPages k 0,
      cachedChunks := eraseKey st.cachedChunks k }

/-- Modelled from the spec: `GlobalFileMgr::removeTableRelatedDS` drops the
table's file manager and with it every buffer of that table. -/
def removeTableRelatedDS (st : CacheState) (t : ChunkKey) : CacheState :=
  { st with
    fmExists := fun k => if tableKeyOf k = t then false else st.fmExists k,
    fmBytes := fun k => if tableKeyOf k = t then 0 else st.fmBytes k,
    fmPages := fun k => if tableKeyOf k = t then 0 else st.fmPages k,
    fmKeys := st.fmKeys.filter (fun k => decide (tableKeyOf k ≠ t)) }

/-- `ForeignStorageCache::clearForTablePrefix`: `CHECK(is_table_key)`; erase
every cached chunk in the range bounded by the prefix and the prefix extended
with `INT_MAX` (via `eraseChunkByIterator`), erase the cached metadata in the
same range, and remove the table from the file manager. -/
def clearForTable (st : CacheState) (pfx : ChunkKey) : CacheState :=
  if isTableKey pfx then
    removeTableRelatedDS
      { (st.cachedChunks.filter (fun k => inKeyRange pfx k)).foldl
          eraseChunkByIt st with
        cachedMetadata :=
          ((st.cachedChunks.filter (fun k => inKeyRange pfx k)).foldl
            eraseChunkByIt st).cachedMetadata.filter
            (fun k => !inKeyRange pfx k) }
      pfx
  else st

/-- `max_num_files * MAX_FILE_N_PAGES` with
`max_num_files = (limit + (file_size - 1)) / file_size` and
`file_size = page_size * MAX_FILE_N_PAGES`, as computed by `setLimit`. -/
def maxPagesForLimit (pageSize maxFileNPages limit : Nat) : Nat :=
  ((limit + (pageSize * maxFileNPages - 1)) / (pageSize * maxFileNPages)) *
    maxFileNPages

/-- The per-table loop of `setLimit`: for every tracker, evict until
`num_pages_ ≤ max_pages_per_table_`; an uncaught `NoEntryFoundException`
(flag `false`) aborts the remaining tables. -/
def setLimitLoop (mx : Nat) :
    List (ChunkKey × TableEvictionTracker) → List ChunkKey →
    (ChunkKey → Nat) →
    List (ChunkKey × TableEvictionTracker) × List ChunkKey ×
      (ChunkKey → Nat) × Bool
  | [], cached, pg => ([], cached, pg, true)
  | (t, tr) :: rest, cached, pg =>
    match evictLoop 0 mx tr.queue tr.numPages cached pg with
    | (ctx, true) =>
      match setLimitLoop mx rest ctx.cached ctx.pg with
      | (rest', c', p', ok) => ((t, ⟨ctx.queue, ctx.np⟩) :: rest', c', p', ok)
    | (ctx, false) =>
      ((t, ⟨ctx.queue, ctx.np⟩) :: rest, ctx.cached, ctx.pg, false)

/-- The failures of `setLimit`: the configured limit is smaller than one file,
or the eviction loop ran dry (`NoEntryFoundException`). -/
inductive SetLimitErr where
  | cacheTooSmall
  | noEntryFound
deriving DecidableEq

/-- `ForeignStorageCache::setLimit`: reject limits below one file
(`page_size * MAX_FILE_N_PAGES`) with `CacheTooSmallException` before any
mutation; otherwise set `max_pages_per_table_` and evict from each table
until it fits, finally recording `max_cached_bytes_ = limit`. -/
def setLimit (st : CacheState) (limit : Nat) : Option SetLimitErr × CacheState :=
  if limit < st.pageSize * st.maxFileNPages then
    (some .cacheTooSmall, st)
  else
    match setLimitLoop (maxPagesForLimit st.pageSize st.maxFileNPages limit)
        st.trackers st.cachedChunks st.fmPages with
    | (trs, c', p', true) =>
      (none, { st with
        trackers := trs, cachedChunks := c', fmPages := p',
        maxPagesPerTable := maxPagesForLimit st.pageSize st.maxFileNPages limit,
        maxCachedBytes := limit })
    | (trs, c', p', false) =>
      (some .noEntryFound, { st with
        trackers := trs, cachedChunks := c', fmPages := p',
        maxPagesPerTable :=
          maxPagesForLimit st.pageSize st.maxFileNPages limit })

end ForeignStorageCacheModel

section ForeignStorageMetadataAndRefresh

/-- `is_varlen_key`: the chunk key has a sub-key component (length 5). -/
def isVarlenKey (k : ChunkKey) : Bool := decide (k.length > 4)

/-- `is_varlen_data_key`: the sub-key component is `1` (data portion). -/
def isVarlenDataKey (k : ChunkKey) : Bool :=
  isVarlenKey k && decide (k.getD 4 0 = 1)

/-- The index sibling (`sub_id = 2`) of a variable-length data chunk key. -/
def indexKeyOf (k : ChunkKey) : ChunkKey := k.take 4 ++ [2]

/-- Modelled from the spec: `GlobalFileMgr::createBuffer` creates an empty
page-backed buffer for the key. -/
def createBufferFM (st : CacheState) (key : ChunkKey) : CacheState :=
  { st with
    fmExists := updBool st.fmExists key true,
    fmBytes := updNat st.fmBytes key 0,
    fmPages := updNat st.fmPages key 0,
    fmKeys := insertKey key st.fmKeys }

/-- `ForeignStorageCache::evictThenEraseChunkUnlocked`: if the chunk's table
has a tracker, remove the chunk from the LRU and run `eraseChunk` (which
returns early when the chunk is not in `cached_chunks_`). -/
def evictThenEraseChunkUnlocked (st : CacheState) (k : ChunkKey) : CacheState :=
  match lookupTracker st.trackers (tableKeyOf k) with
  | none => st
  | some tr =>
    if k ∈ st.cachedChunks then
      { st with
        trackers := updateTracker st.trackers (tableKeyOf k)
          ⟨eraseKey tr.queue k, tr.numPages - st.fmPages k⟩,
        fmPages := updNat st.fmPages k 0,
        cachedChunks := eraseKey st.cachedChunks k }
    else
      { st with
        trackers := updateTracker st.trackers (tableKeyOf k)
          ⟨eraseKey tr.queue k, tr.numPages⟩ }

/-- The slice of `ChunkMetadata` the cache manipulates (`numBytes`, written
into the buffer by `set_metadata_for_buffer`). -/
structure ChunkMeta where
  numBytes : Nat
deriving DecidableEq

/-- One iteration of `ForeignStorageCache::cacheMetadataVec`: record the key
in `cached_metadata_`; create the file buffer (and, for variable-length data
keys, its index sibling) if absent; write the metadata into the buffer
(`setSize(numBytes)`); evict-then-erase any prior chunk data for the key (and
the index sibling) — a metadata refresh invalidates data; bump
`num_metadata_added_`. -/
def cacheMetadataOne (st : CacheState) (km : ChunkKey × ChunkMeta) :
    CacheState :=
  let st0 := { st with cachedMetadata := insertKey km.1 st.cachedMetadata }
  let st1 :=
    if st0.fmExists km.1 then st0
    else if isVarlenKey km.1 then
      createBufferFM (createBufferFM st0 km.1) (indexKeyOf km.1)
    else createBufferFM st0 km.1
  let st2 := { st1 with fmBytes := updNat st1.fmBytes km.1 km.2.numBytes }
  let st3 := evictThenEraseChunkUnlocked st2 km.1
  let st4 :=
    if isVarlenKey km.1 then evictThenEraseChunkUnlocked st3 (indexKeyOf km.1)
    else st3
  { st4 with numMetadataAdded := st4.numMetadataAdded + 1 }

/-- `ForeignStorageCache::cacheMetadataVec` (the `CHECK(is_varlen_data_key)`
for variable-length keys is modelled as stopping). -/
def cacheMetadataVec (st : CacheState) :
    List (ChunkKey × ChunkMeta) → CacheState
  | [] => st
  | km :: rest =>
    if isVarlenKey km.1 && !isVarlenDataKey km.1 then st
    else cacheMetadataVec (cacheMetadataOne st km) rest

/-- `ForeignStorageCache::hasCachedMetadataForKeyPrefix`. -/
def hasCachedMetadataForKeyPfx (st : CacheState) (pfx : ChunkKey) : Bool :=
  st.cachedMetadata.any (fun k => inKeyRange pfx k)

/-- `ForeignStorageCache::getCachedChunksForKeyPrefix`. -/
def getCachedChunksForKeyPfx (st : CacheState) (pfx : ChunkKey) :
    List ChunkKey :=
  st.cachedChunks.filter (fun k => inKeyRange pfx k)

/-- `ForeignStorageCache::isMetadataCached`. -/
def isMetadataCached (st : CacheState) (k : ChunkKey) : Bool :=
  decide (k ∈ st.cachedMetadata)

/-- The loop of `ForeignStorageCache::recoverCacheForTable`: re-emit every
file-manager metadata entry into `cached_metadata_` and re-insert chunks
whose file buffers have pages into the eviction algorithm. -/
def recoverLoop (st : CacheState) : List ChunkKey → CacheState
  | [] => st
  | k :: rest =>
    if ({ st with cachedMetadata := insertKey k st.cachedMetadata }).fmPages k
        > 0 then
      match insertChunkIntoEvictionAlg
          { st with cachedMetadata := insertKey k st.cachedMetadata } k
          (st.fmBytes k) with
      | (.aborted, st2) => st2
      | (.inserted, st2) => recoverLoop st2 rest
      | (.rejected, st2) => recoverLoop st2 rest
    else recoverLoop { st with cachedMetadata := insertKey k st.cachedMetadata }
      rest

/-- `ForeignStorageCache::recoverCacheForTable`: create the table's tracker,
read the table's persisted metadata from the file manager and re-populate
`cached_metadata_` / the LRU. -/
def recoverCacheForTable (st : CacheState) (t : ChunkKey) : CacheState :=
  if isTableKey t then
    recoverLoop (createTrackerMapEntryIfNoneExists st t)
      ((createTrackerMapEntryIfNoneExists st t).fmKeys.filter
        (fun k => inKeyRange t k))
  else st

/-- `ForeignStorageCache::cacheMetadataWithFragIdGreaterOrEqualTo`: keep only
metadata whose fragment id (`key[CHUNK_KEY_FRAGMENT_IDX]`) is at least
`fragId` and cache it. -/
def cacheMetadataWithFragIdGreaterOrEqualTo (st : CacheState)
    (mv : List (ChunkKey × ChunkMeta)) (fragId : Int) : CacheState :=
  cacheMetadataVec st (mv.filter (fun km => decide (km.1.getD 3 0 ≥ fragId)))

/-- `temp_chunk_buffer_map_`: the transient chunk buffers of a
`ForeignStorageMgr`, keyed by exact chunk key; a buffer is its byte
contents. -/
def TempBufMap := ChunkKey → Option (List Nat)

/-- `ForeignStorageMgr::clearTempChunkBufferMapEntriesForTable`: erase the
range from `lower_bound(table_key)` to
`upper_bound({db, table, INT_MAX})`. -/
def clearTempEntriesForTable (tm : TempBufMap) (t : ChunkKey) : TempBufMap :=
  fun k => if inKeyRange t k then none else tm k

/-- The state of a `CachingForeignStorageMgr`: its disk cache plus the
inherited temporary chunk buffer map (the data-wrapper map holds no
cache-visible state and is not modelled). -/
structure CachingMgrState where
  cache : CacheState
  tempBufMap : TempBufMap

/-- Errors escaping a refresh: the storage metadata scan threw (connection
failure), or the re-cache after the clear failed
(`PostEvictionRefreshException`). -/
inductive RefreshErr where
  | storage
  | postEviction
deriving DecidableEq

/-- `CachingForeignStorageMgr::refreshChunksInCacheByFragment`, with two
inessential simplifications: the wall-clock cutoff
(`MAX_REFRESH_TIME_IN_SECONDS`) is not modelled (real time), and the
per-fragment `getChunkBuffersForCaching` + `populateChunkBuffers` calls are
collapsed into one populate pass over all collected keys (the per-key state
updates are independent, so non-aborting runs produce the same state).  For
each previously cached chunk with fragment id ≥ `startFragId` whose metadata
is cached, the chunk (preceded by its index sibling for variable-length
columns) is re-populated through the wrapper (`ws` gives the bytes the
wrapper writes per chunk) and re-recorded via `cacheTableChunks`. -/
def refreshKeysToCache (st : CacheState) (old : List ChunkKey)
    (startFragId : Int) : List ChunkKey :=
  old.foldr (fun k acc =>
    if k.getD 3 0 < startFragId then acc
    else if k ∈ st.cachedMetadata then
      (if isVarlenKey k then [indexKeyOf k, k] else [k]) ++ acc
    else acc) []

/-- See `refreshKeysToCache`. -/
def refreshChunksInCacheByFragment (ws : ChunkKey → Nat)
    (old : List ChunkKey) (startFragId : Int) (st : CacheState) : CacheState :=
  if old.isEmpty then st
  else
    cacheTableChunks
      (populateChunkBuffers st
        ((refreshKeysToCache st old startFragId).map (fun k => (k, ws k))))
      (refreshKeysToCache st old startFragId)

/-- `CachingForeignStorageMgr::refreshNonAppendTableInCache`: scan the
storage metadata FIRST (the scan result is the `scan` argument; a connection
failure at this point propagates before anything is cleared, leaving the
cache untouched); THEN clear the table's cached state; THEN cache the new
metadata; THEN repopulate the previously cached chunks. -/
def refreshNonAppendTableInCache
    (scan : Except Unit (List (ChunkKey × ChunkMeta))) (ws : ChunkKey → Nat)
    (tableKey : ChunkKey) (oldChunkKeys : List ChunkKey) (st : CacheState) :
    Option RefreshErr × CacheState :=
  match scan with
  | .error _ => (some .storage, st)
  | .ok storageMetadata =>
    (none,
      refreshChunksInCacheByFragment ws oldChunkKeys 0
        (cacheMetadataVec (clearForTable st tableKey) storageMetadata))

/-- `CachingForeignStorageMgr::getHighestCachedFragId`. -/
def getHighestCachedFragId (st : CacheState) (t : ChunkKey) : Int :=
  if hasCachedMetadataForKeyPfx st t then
    (st.cachedMetadata.filter (fun k => inKeyRange t k)).foldl
      (fun m k => max m (k.getD 3 0)) 0
  else 0

/-- `CachingForeignStorageMgr::refreshAppendTableInCache`: determine the
highest cached fragment id, scan storage metadata, cache only metadata with
fragment id ≥ that id and re-populate the chunks of those fragments. -/
def refreshAppendTableInCache
    (scan : Except Unit (List (ChunkKey × ChunkMeta))) (ws : ChunkKey → Nat)
    (tableKey : ChunkKey) (oldChunkKeys : List ChunkKey) (st : CacheState) :
    Option RefreshErr × CacheState :=
  match scan with
  | .error _ => (some .storage, st)
  | .ok storageMetadata =>
    (none,
      refreshChunksInCacheByFragment ws oldChunkKeys
        (getHighestCachedFragId st tableKey)
        (cacheMetadataWithFragIdGreaterOrEqualTo st storageMetadata
          (getHighestCachedFragId st tableKey)))

/-- `CachingForeignStorageMgr::refreshTableInCache`: recover the table's
cached state from disk if it has none (server restarted since last use),
remember which chunks were cached, and dispatch on the table's refresh
mode.  `appendMode` stands for the catalog's `isAppendMode()` answer. -/
def refreshTableInCache (appendMode : Bool)
    (scan : Except Unit (List (ChunkKey × ChunkMeta))) (ws : ChunkKey → Nat)
    (t : ChunkKey) (st : CacheState) : Option RefreshErr × CacheState :=
  if hasCachedMetadataForKeyPfx st t then
    if appendMode then
      refreshAppendTableInCache scan ws t (getCachedChunksForKeyPfx st t) st
    else
      refreshNonAppendTableInCache scan ws t (getCachedChunksForKeyPfx st t) st
  else
    if appendMode then
      refreshAppendTableInCache scan ws t
        (getCachedChunksForKeyPfx (recoverCacheForTable st t) t)
        (recoverCacheForTable st t)
    else
      refreshNonAppendTableInCache scan ws t
        (getCachedChunksForKeyPfx (recoverCacheForTable st t) t)
        (recoverCacheForTable st t)

/-- `CachingForeignStorageMgr::refreshTable`: `CHECK(is_table_key)`, clear
the table's temporary chunk buffers, then either drop all cached state for
the table prefix (`evict = true`) or refresh it in place
(`evict = false`). -/
def refreshTable (m : CachingMgrState) (t : ChunkKey) (evict : Bool)
    (appendMode : Bool) (scan : Except Unit (List (ChunkKey × ChunkMeta)))
    (ws : ChunkKey → Nat) : Option RefreshErr × CachingMgrState :=
  if isTableKey t then
    if evict then
      (none, { cache := clearForTable m.cache t,
               tempBufMap := clearTempEntriesForTable m.tempBufMap t })
    else
      match refreshTableInCache appendMode scan ws t m.cache with
      | (e, st') =>
        (e, { cache := st',
              tempBufMap := clearTempEntriesForTable m.tempBufMap t })
  else (none, m)

end ForeignStorageMetadataAndRefresh

section ForeignStorageMgrModel

/-- The state of an uncached `ForeignStorageMgr` relevant to buffer fetches:
its temporary chunk buffer map (the data-wrapper map holds no buffer-visible
state and is not modelled). -/
structure FsMgrState where
  tempBufMap : TempBufMap

/-- How a `fetchBuffer` call was served. -/
inductive FetchSource where
  | tempBuffer
  | wrapper
deriving DecidableEq

/-- `ForeignStorageMgr::fetchBufferIfTempBufferMapEntryExists`: when the
chunk key has a temporary buffer, copy `num_bytes` of its contents to the
destination (`AbstractBuffer::copyTo`, modelled from the spec as delivering
exactly `n` bytes) and erase the map entry before returning. -/
def fetchBufferIfTempBufferMapEntryExists (m : FsMgrState) (k : ChunkKey)
    (numBytes : Nat) : Option (List Nat) × FsMgrState :=
  match m.tempBufMap k with
  | none => (none, m)
  | some buf =>
    (some (buf.take numBytes),
      ⟨fun x => if x = k then none else m.tempBufMap x⟩)

/-- `ForeignStorageMgr::fetchBuffer`: serve from the temporary buffer map if
possible; otherwise create/populate the data wrapper, allocate temporary
buffers for the chunk's column-family siblings (`get_keys_set_from_table`
minus the requested key; the family is catalog-driven and passed as
`familyKeys`), and let the wrapper write directly into the destination and
the sibling temp buffers (`wrapperContent` gives the bytes per chunk). -/
def fetchBuffer (m : FsMgrState) (k : ChunkKey) (numBytes : Nat)
    (familyKeys : List ChunkKey) (wrapperContent : ChunkKey → List Nat) :
    (FetchSource × List Nat) × FsMgrState :=
  match fetchBufferIfTempBufferMapEntryExists m k numBytes with
  | (some data, m1) => ((.tempBuffer, data), m1)
  | (none, m1) =>
    ((.wrapper, wrapperContent k),
      ⟨fun x =>
        if x ∈ familyKeys.filter (fun y => decide (y ≠ k)) then
          some (wrapperContent x)
        else m1.tempBufMap x⟩)

end ForeignStorageMgrModel

section CacheHelperLemmas

/-- Total number of file-manager pages of the chunks in a queue. -/
def pagesSum (pg : ChunkKey → Nat) (q : List ChunkKey) : Nat :=
  (q.map pg).sum

theorem pagesSum_nil (pg : ChunkKey → Nat) : pagesSum pg [] = 0 := rfl

theorem pagesSum_cons (pg : ChunkKey → Nat) (a : ChunkKey) (l : List ChunkKey) :
    pagesSum pg (a :: l) = pg a + pagesSum pg l := by
  simp [pagesSum]

theorem pagesSum_congr {f g : ChunkKey → Nat} {q : List ChunkKey}
    (h : ∀ k ∈ q, f k = g k) : pagesSum f q = pagesSum g q := by
  induction q with
  | nil => rfl
  | cons a l ih =>
    rw [pagesSum_cons, pagesSum_cons, h a (List.mem_cons_self a l),
      ih (fun k hk => h k (List.mem_cons_of_mem a hk))]

theorem pagesSum_mono {f g : ChunkKey → Nat} {q : List ChunkKey}
    (h : ∀ k ∈ q, f k ≤ g k) : pagesSum f q ≤ pagesSum g q := by
  induction q with
  | nil => exact le_refl _
  | cons a l ih =>
    rw [pagesSum_cons, pagesSum_cons]
    exact Nat.add_le_add (h a (List.mem_cons_self a l))
      (ih (fun k hk => h k (List.mem_cons_of_mem a hk)))

theorem pagesSum_sublist_le {f : ChunkKey → Nat} {q q' : List ChunkKey}
    (h : q'.Sublist q) : pagesSum f q' ≤ pagesSum f q := by
  induction h with
  | slnil => exact le_refl _
  | cons a _ ih => rw [pagesSum_cons]; omega
  | cons₂ a _ ih => rw [pagesSum_cons, pagesSum_cons]; omega

theorem eraseKey_sublist (l : List ChunkKey) (k : ChunkKey) :
    (eraseKey l k).Sublist l := by
  induction l with
  | nil => exact List.Sublist.refl _
  | cons x xs ih =>
    unfold eraseKey
    by_cases hx : x = k
    · rw [if_pos hx]
      exact List.sublist_cons_self x xs
    · rw [if_neg hx]
      exact List.Sublist.cons₂ x ih

theorem eraseKey_subset {l : List ChunkKey} {k x : ChunkKey}
    (h : x ∈ eraseKey l k) : x ∈ l :=
  (eraseKey_sublist l k).subset h

theorem eraseKey_nodup {l : List ChunkKey} (k : ChunkKey) (h : l.Nodup) :
    (eraseKey l k).Nodup :=
  h.sublist (eraseKey_sublist l k)

theorem eraseKey_of_not_mem {l : List ChunkKey} {k : ChunkKey} (h : k ∉ l) :
    eraseKey l k = l := by
  induction l with
  | nil => rfl
  | cons x xs ih =>
    unfold eraseKey
    rw [if_neg (fun hx : x = k => h (hx ▸ List.mem_cons_self x xs)),
      ih (fun hm => h (List.mem_cons_of_mem x hm))]

theorem mem_eraseKey_of_nodup {l : List ChunkKey} {k x : ChunkKey}
    (h : l.Nodup) : x ∈ eraseKey l k ↔ x ≠ k ∧ x ∈ l := by
  induction l with
  | nil => simp [eraseKey]
  | cons y ys ih =>
    rw [List.nodup_cons] at h
    unfold eraseKey
    by_cases hy : y = k
    · subst hy
      rw [if_pos rfl]
      constructor
      · intro hm
        exact ⟨fun hx => h.1 (hx ▸ hm), List.mem_cons_of_mem y hm⟩
      · rintro ⟨hne, hm⟩
        rcases List.mem_cons.mp hm with rfl | hm
        · exact absurd rfl hne
        · exact hm
    · rw [if_neg hy]
      constructor
      · intro hm
        rcases List.mem_cons.mp hm with rfl | hm
        · exact ⟨fun hx => hy hx, List.mem_cons_self x ys⟩
        · obtain ⟨hne, hm'⟩ := (ih h.2).mp hm
          exact ⟨hne, List.mem_cons_of_mem y hm'⟩
      · rintro ⟨hne, hm⟩
        rcases List.mem_cons.mp hm with rfl | hm
        · exact List.mem_cons_self x (eraseKey ys k)
        · exact List.mem_cons_of_mem y ((ih h.2).mpr ⟨hne, hm⟩)

theorem not_mem_eraseKey_self {l : List ChunkKey} {k : ChunkKey}
    (h : l.Nodup) : k ∉ eraseKey l k := by
  intro hm
  exact ((mem_eraseKey_of_nodup h).mp hm).1 rfl

theorem pagesSum_eraseKey {f : ChunkKey → Nat} {q : List ChunkKey}
    {a : ChunkKey} (h : a ∈ q) :
    pagesSum f q = f a + pagesSum f (eraseKey q a) := by
  induction q with
  | nil => cases h
  | cons x xs ih =>
    unfold eraseKey
    by_cases hx : x = a
    · rw [if_pos hx, pagesSum_cons, hx]
    · have hm : a ∈ xs := by
        rcases List.mem_cons.mp h with rfl | hm
        · exact absurd rfl hx
        · exact hm
      rw [if_neg hx, pagesSum_cons, pagesSum_cons, ih hm]
      omega

theorem pagesSum_eraseKey_le {f : ChunkKey → Nat} {q : List ChunkKey}
    {a : ChunkKey} : pagesSum f (eraseKey q a) ≤ pagesSum f q :=
  pagesSum_sublist_le (eraseKey_sublist q a)

theorem updNat_self (f : ChunkKey → Nat) (k : ChunkKey) (v : Nat) :
    updNat f k v k = v := by simp [updNat]

theorem updNat_ne (f : ChunkKey → Nat) {k x : ChunkKey} (v : Nat)
    (h : x ≠ k) : updNat f k v x = f x := by simp [updNat, h]

theorem mem_insertKey {x k : ChunkKey} {l : List ChunkKey} :
    x ∈ insertKey k l ↔ x = k ∨ x ∈ l := by
  unfold insertKey
  split
  · rename_i hm
    constructor
    · exact fun h => Or.inr h
    · rintro (rfl | h)
      · exact hm
      · exact h
  · simp [or_comm]

theorem insertKey_nodup {k : ChunkKey} {l : List ChunkKey} (h : l.Nodup) :
    (insertKey k l).Nodup := by
  unfold insertKey
  split
  · exact h
  · rename_i hm
    simpa using List.Nodup.append h (List.nodup_singleton k)
      (by simpa using fun hk => hm hk)

theorem self_mem_insertKey (k : ChunkKey) (l : List ChunkKey) :
    k ∈ insertKey k l := mem_insertKey.mpr (Or.inl rfl)

theorem lookupTracker_mem {trs : List (ChunkKey × TableEvictionTracker)}
    {t : ChunkKey} {tr : TableEvictionTracker}
    (h : lookupTracker trs t = some tr) : (t, tr) ∈ trs := by
  induction trs with
  | nil => cases h
  | cons p rest ih =>
    unfold lookupTracker at h
    by_cases hp : p.1 = t
    · obtain ⟨p1, p2⟩ := p
      simp only at hp
      rw [if_pos hp] at h
      cases h
      rw [hp]
      exact List.mem_cons_self _ _
    · obtain ⟨p1, p2⟩ := p
      simp only at hp
      rw [if_neg hp] at h
      exact List.mem_cons_of_mem _ (ih h)

theorem mem_lookupTracker {trs : List (ChunkKey × TableEvictionTracker)}
    {t : ChunkKey} {tr : TableEvictionTracker}
    (hnd : (trs.map Prod.fst).Nodup) (h : (t, tr) ∈ trs) :
    lookupTracker trs t = some tr := by
  induction trs with
  | nil => cases h
  | cons p rest ih =>
    rcases List.mem_cons.mp h with rfl | hmem
    · unfold lookupTracker
      rw [if_pos rfl]
    · obtain ⟨p1, p2⟩ := p
      unfold lookupTracker
      by_cases hp : p1 = t
      · exfalso
        subst hp
        simp only [List.map_cons, List.nodup_cons] at hnd
        exact hnd.1 (List.mem_map.mpr ⟨(p1, tr), hmem, rfl⟩)
      · rw [if_neg hp]
        simp only [List.map_cons, List.nodup_cons] at hnd
        exact ih hnd.2 hmem

theorem updateTracker_map_fst (trs : List (ChunkKey × TableEvictionTracker))
    (t : ChunkKey) (tr : TableEvictionTracker) :
    (updateTracker trs t tr).map Prod.fst = trs.map Prod.fst := by
  induction trs with
  | nil => rfl
  | cons p rest ih =>
    obtain ⟨p1, p2⟩ := p
    unfold updateTracker
    by_cases hp : p1 = t
    · rw [if_pos hp]
      simp [hp]
    · rw [if_neg hp]
      simp [ih]

theorem updateTracker_not_found {trs : List (ChunkKey × TableEvictionTracker)}
    {t : ChunkKey} (tr : TableEvictionTracker)
    (h : lookupTracker trs t = none) : updateTracker trs t tr = trs := by
  induction trs with
  | nil => rfl
  | cons p rest ih =>
    obtain ⟨p1, p2⟩ := p
    unfold lookupTracker at h
    unfold updateTracker
    by_cases hp : p1 = t
    · rw [if_pos hp] at h
      cases h
    · rw [if_neg hp] at h
      rw [if_neg hp, ih h]

theorem lookupTracker_updateTracker_self
    {trs : List (ChunkKey × TableEvictionTracker)} {t : ChunkKey}
    {tr0 : TableEvictionTracker} (tr : TableEvictionTracker)
    (h : lookupTracker trs t = some tr0) :
    lookupTracker (updateTracker trs t tr) t = some tr := by
  induction trs with
  | nil => cases h
  | cons p rest ih =>
    obtain ⟨p1, p2⟩ := p
    unfold lookupTracker at h
    unfold updateTracker
    by_cases hp : p1 = t
    · rw [if_pos hp]
      unfold lookupTracker
      rw [if_pos rfl]
    · rw [if_neg hp] at h
      rw [if_neg hp]
      unfold lookupTracker
      rw [if_neg hp]
      exact ih h

theorem lookupTracker_updateTracker_ne
    {trs : List (ChunkKey × TableEvictionTracker)} {t t' : ChunkKey}
    (tr : TableEvictionTracker) (h : t' ≠ t) :
    lookupTracker (updateTracker trs t tr) t' = lookupTracker trs t' := by
  induction trs with
  | nil => rfl
  | cons p rest ih =>
    obtain ⟨p1, p2⟩ := p
    by_cases hp : p1 = t
    · subst hp
      unfold updateTracker
      rw [if_pos rfl]
      unfold lookupTracker
      rw [if_neg (fun hh : p1 = t' => h hh.symm),
        if_neg (fun hh : p1 = t' => h hh.symm)]
    · unfold updateTracker
      rw [if_neg hp]
      unfold lookupTracker
      by_cases hp' : p1 = t'
      · rw [if_pos hp', if_pos hp']
      · rw [if_neg hp', if_neg hp']
        exact ih

theorem mem_updateTracker {trs : List (ChunkKey × TableEvictionTracker)}
    {t : ChunkKey} {tr tr0 : TableEvictionTracker}
    {p : ChunkKey × TableEvictionTracker}
    (hnd : (trs.map Prod.fst).Nodup) (h : lookupTracker trs t = some tr0) :
    p ∈ updateTracker trs t tr ↔ p = (t, tr) ∨ (p ∈ trs ∧ p.1 ≠ t) := by
  induction trs with
  | nil => cases h
  | cons q rest ih =>
    obtain ⟨q1, q2⟩ := q
    unfold lookupTracker at h
    unfold updateTracker
    simp only [List.map_cons, List.nodup_cons] at hnd
    by_cases hq : q1 = t
    · rw [if_pos hq] at h ⊢
      subst hq
      cases h
      constructor
      · intro hm
        rcases List.mem_cons.mp hm with rfl | hm
        · exact Or.inl rfl
        · refine Or.inr ⟨List.mem_cons_of_mem _ hm, fun hp => ?_⟩
          exact hnd.1 (List.mem_map.mpr ⟨p, hm, hp⟩)
      · rintro (rfl | ⟨hm, hne⟩)
        · exact List.mem_cons_self _ _
        · rcases List.mem_cons.mp hm with rfl | hm
          · exact absurd rfl hne
          · exact List.mem_cons_of_mem _ hm
    · rw [if_neg hq] at h ⊢
      constructor
      · intro hm
        rcases List.mem_cons.mp hm with rfl | hm
        · exact Or.inr ⟨List.mem_cons_self _ _, hq⟩
        · rcases (ih hnd.2 h).mp hm with hh | ⟨hm', hne⟩
          · exact Or.inl hh
          · exact Or.inr ⟨List.mem_cons_of_mem _ hm', hne⟩
      · rintro (rfl | ⟨hm, hne⟩)
        · exact List.mem_cons_of_mem _ ((ih hnd.2 h).mpr (Or.inl rfl))
        · rcases List.mem_cons.mp hm with rfl | hm'
          · exact List.mem_cons_self _ _
          · exact List.mem_cons_of_mem _
              ((ih hnd.2 h).mpr (Or.inr ⟨hm', hne⟩))

theorem lookupTracker_append_of_none
    {trs : List (ChunkKey × TableEvictionTracker)} {t' : ChunkKey}
    (t : ChunkKey) (tr : TableEvictionTracker)
    (h : lookupTracker trs t' = none) :
    lookupTracker (trs ++ [(t, tr)]) t' =
      if t = t' then some tr else none := by
  induction trs with
  | nil =>
    show lookupTracker [(t, tr)] t' = _
    unfold lookupTracker
    rfl
  | cons p rest ih =>
    obtain ⟨p1, p2⟩ := p
    unfold lookupTracker at h
    show lookupTracker ((p1, p2) :: (rest ++ [(t, tr)])) t' = _
    unfold lookupTracker
    by_cases hp : p1 = t'
    · rw [if_pos hp] at h
      cases h
    · rw [if_neg hp] at h
      rw [if_neg hp]
      exact ih h

theorem lookupTracker_append_of_some
    {trs : List (ChunkKey × TableEvictionTracker)} {t' : ChunkKey}
    {tr0 : TableEvictionTracker} (t : ChunkKey) (tr : TableEvictionTracker)
    (h : lookupTracker trs t' = some tr0) :
    lookupTracker (trs ++ [(t, tr)]) t' = some tr0 := by
  induction trs with
  | nil => cases h
  | cons p rest ih =>
    obtain ⟨p1, p2⟩ := p
    unfold lookupTracker at h
    show lookupTracker ((p1, p2) :: (rest ++ [(t, tr)])) t' = _
    unfold lookupTracker
    by_cases hp : p1 = t'
    · rw [if_pos hp] at h
      rw [if_pos hp]
      exact h
    · rw [if_neg hp] at h
      rw [if_neg hp]
      exact ih h

end CacheHelperLemmas

section EvictLoopLemmas

/-- Everything the invariant proofs need to know about one run of the
eviction loop: the remaining queue is a duplicate-free sublist of the input;
the page accounting stays an upper bound of the queued pages; `num_pages_`
never increases; a normal exit guarantees the insertion fits; the loop only
shrinks `cached_chunks_` and only zeroes page counts of evicted chunks;
chunks outside the processed queue are untouched; surviving queue entries
keep their cached status; and a chunk of the input queue that is still cached
afterwards is still queued. -/
theorem evictLoop_inv (needed mx : Nat) (q : List ChunkKey) (np : Nat)
    (cached : List ChunkKey) (pg : ChunkKey → Nat)
    (hq : q.Nodup) (hsum : pagesSum pg q ≤ np) (hc : cached.Nodup) :
    (evictLoop needed mx q np cached pg).1.queue.Sublist q ∧
    (evictLoop needed mx q np cached pg).1.queue.Nodup ∧
    pagesSum (evictLoop needed mx q np cached pg).1.pg
        (evictLoop needed mx q np cached pg).1.queue ≤
      (evictLoop needed mx q np cached pg).1.np ∧
    (evictLoop needed mx q np cached pg).1.cached.Nodup ∧
    (evictLoop needed mx q np cached pg).1.np ≤ np ∧
    ((evictLoop needed mx q np cached pg).2 = true →
      (evictLoop needed mx q np cached pg).1.np + needed ≤ mx) ∧
    (∀ x ∈ (evictLoop needed mx q np cached pg).1.cached, x ∈ cached) ∧
    (∀ x, x ∉ q →
      (evictLoop needed mx q np cached pg).1.pg x = pg x ∧
        (x ∈ (evictLoop needed mx q np cached pg).1.cached ↔ x ∈ cached)) ∧
    (∀ x ∈ (evictLoop needed mx q np cached pg).1.queue,
      (x ∈ (evictLoop needed mx q np cached pg).1.cached ↔ x ∈ cached)) ∧
    (∀ x ∈ q, x ∈ (evictLoop needed mx q np cached pg).1.cached →
      x ∈ (evictLoop needed mx q np cached pg).1.queue) ∧
    (∀ x, (evictLoop needed mx q np cached pg).1.pg x ≤ pg x) := by
  induction q generalizing np cached pg with
  | nil =>
    simp only [evictLoop]
    refine ⟨List.Sublist.refl _, List.nodup_nil, ?_, hc, le_refl _, ?_, ?_,
      ?_, ?_, ?_, ?_⟩
    · show pagesSum pg [] ≤ np
      rw [pagesSum_nil]
      exact Nat.zero_le np
    · intro h
      exact of_decide_eq_true h
    · intro x hx
      exact hx
    · simp
    · intro x hx
      cases hx
    · intro x hx
      cases hx
    · intro x
      exact le_refl _
  | cons f rest ih =>
    rw [List.nodup_cons] at hq
    simp only [evictLoop]
    by_cases hcond : np + needed > mx
    · rw [if_pos hcond]
      by_cases hf : f ∈ cached
      · rw [if_pos hf]
        have hsum' : pagesSum (updNat pg f 0) rest ≤ np - pg f := by
          have h1 : pagesSum (updNat pg f 0) rest = pagesSum pg rest :=
            pagesSum_congr (fun k hk =>
              updNat_ne pg 0 (fun he => hq.1 (he ▸ hk)))
          have h2 : pg f + pagesSum pg rest ≤ np := by
            rw [← pagesSum_cons]
            exact hsum
          omega
        obtain ⟨h1, h2, h3, h4, h5, h6, h7, h8, h9, h10, h11⟩ :=
          ih (np - pg f) (eraseKey cached f) (updNat pg f 0) hq.2 hsum'
            (eraseKey_nodup f hc)
        refine ⟨h1.cons f, h2, h3, h4, le_trans h5 (Nat.sub_le np (pg f)),
          h6, fun x hx => eraseKey_subset (h7 x hx), ?_, ?_, ?_, ?_⟩
        · intro x hx
          have hxf : x ≠ f := fun he => hx (he ▸ List.mem_cons_self f rest)
          have hxr : x ∉ rest := fun hm => hx (List.mem_cons_of_mem f hm)
          obtain ⟨ha, hb⟩ := h8 x hxr
          refine ⟨by rw [ha, updNat_ne pg 0 hxf], ?_⟩
          rw [hb, mem_eraseKey_of_nodup hc]
          exact ⟨fun hh => hh.2, fun hh => ⟨hxf, hh⟩⟩
        · intro x hx
          have hxf : x ≠ f := fun he => hq.1 (he ▸ h1.subset hx)
          rw [h9 x hx, mem_eraseKey_of_nodup hc]
          exact ⟨fun hh => hh.2, fun hh => ⟨hxf, hh⟩⟩
        · intro x hx hxc
          rcases List.mem_cons.mp hx with rfl | hx'
          · exact absurd (h7 x hxc) (not_mem_eraseKey_self hc)
          · exact h10 x hx' hxc
        · intro x
          refine le_trans (h11 x) ?_
          unfold updNat
          by_cases hx : x = f
          · rw [if_pos hx, hx]
            exact Nat.zero_le _
          · rw [if_neg hx]
      · rw [if_neg hf]
        have hsum' : pagesSum pg rest ≤ np := by
          rw [pagesSum_cons] at hsum
          omega
        obtain ⟨h1, h2, h3, h4, h5, h6, h7, h8, h9, h10, h11⟩ :=
          ih np cached pg hq.2 hsum' hc
        refine ⟨h1.cons f, h2, h3, h4, h5, h6, h7, ?_, h9, ?_, h11⟩
        · intro x hx
          exact h8 x (fun hm => hx (List.mem_cons_of_mem f hm))
        · intro x hx hxc
          rcases List.mem_cons.mp hx with rfl | hx'
          · exact absurd (h7 x hxc) hf
          · exact h10 x hx' hxc
    · rw [if_neg hcond]
      refine ⟨List.Sublist.refl _, List.nodup_cons.mpr hq, hsum, hc,
        le_refl _, ?_, fun x hx => hx,
        fun x _ => ⟨rfl, Iff.rfl⟩, fun x _ => Iff.rfl, fun x hx _ => hx,
        fun x => le_refl _⟩
      intro _
      show np + needed ≤ mx
      omega

/-- When a tracker's page count is exactly the total pages of its queue (the
at-rest state of a well-formed cache) and the queued chunks are all cached,
the eviction loop always terminates normally (`evictNextChunk` is never
called on an empty queue). -/
theorem evictLoop_ok (needed mx : Nat) (q : List ChunkKey) (np : Nat)
    (cached : List ChunkKey) (pg : ChunkKey → Nat)
    (hq : q.Nodup) (hsum : pagesSum pg q = np)
    (hsub : ∀ k ∈ q, k ∈ cached) (hc : cached.Nodup) (hn : needed ≤ mx) :
    (evictLoop needed mx q np cached pg).2 = true := by
  induction q generalizing np cached pg with
  | nil =>
    simp only [evictLoop]
    rw [pagesSum_nil] at hsum
    subst hsum
    exact decide_eq_true (by omega)
  | cons f rest ih =>
    rw [List.nodup_cons] at hq
    simp only [evictLoop]
    by_cases hcond : np + needed > mx
    · rw [if_pos hcond, if_pos (hsub f (List.mem_cons_self f rest))]
      have hsum' : pagesSum (updNat pg f 0) rest = np - pg f := by
        have h1 : pagesSum (updNat pg f 0) rest = pagesSum pg rest :=
          pagesSum_congr (fun k hk =>
            updNat_ne pg 0 (fun he => hq.1 (he ▸ hk)))
        have h2 : pg f + pagesSum pg rest = np := by
          rw [← pagesSum_cons]
          exact hsum
        omega
      refine ih (np - pg f) (eraseKey cached f) (updNat pg f 0) hq.2 hsum' ?_
        (eraseKey_nodup f hc)
      intro k hk
      rw [mem_eraseKey_of_nodup hc]
      exact ⟨fun he => hq.1 (he ▸ hk), hsub k (List.mem_cons_of_mem f hk)⟩
    · rw [if_neg hcond]

end EvictLoopLemmas

section CacheInvariant

theorem pagesSum_append_single (f : ChunkKey → Nat) (l : List ChunkKey)
    (a : ChunkKey) : pagesSum f (l ++ [a]) = pagesSum f l + f a := by
  induction l with
  | nil => simp [pagesSum]
  | cons x xs ih =>
    rw [List.cons_append, pagesSum_cons, pagesSum_cons, ih]
    omega

theorem nodup_append_single {l : List ChunkKey} {a : ChunkKey}
    (h : l.Nodup) (ha : a ∉ l) : (l ++ [a]).Nodup := by
  simpa using List.Nodup.append h (List.nodup_singleton a)
    (by simpa using ha)

/-- The representation invariant of the cache, preserved by every operation
from the initial state: the cached-chunk set and the tracker map keys are
duplicate-free; every tracker's LRU queue is duplicate-free, holds only
chunks of its own table, holds only cached chunks, its recorded page count
bounds the queued file pages, and respects the per-table page budget; every
cached chunk sits in its table's queue; and no file buffer has more pages
than its byte size requires. -/
structure CacheInv (st : CacheState) : Prop where
  ndCached : st.cachedChunks.Nodup
  ndKeys : (st.trackers.map Prod.fst).Nodup
  trackerOk : ∀ p ∈ st.trackers,
    p.2.queue.Nodup ∧ (∀ k ∈ p.2.queue, tableKeyOf k = p.1) ∧
    (∀ k ∈ p.2.queue, k ∈ st.cachedChunks) ∧
    pagesSum st.fmPages p.2.queue ≤ p.2.numPages ∧
    p.2.numPages ≤ st.maxPagesPerTable
  cachedInQueue : ∀ k ∈ st.cachedChunks, ∃ p ∈ st.trackers,
    p.1 = tableKeyOf k ∧ k ∈ p.2.queue
  pagesLe : ∀ k, st.fmPages k ≤ ceilDivNat (st.fmBytes k) st.pageSize

/-- Under the key-uniqueness of the tracker map, the entry found by name is
the entry witnessing `cachedInQueue`. -/
theorem tracker_unique {st : CacheState} (hinv : CacheInv st)
    {p : ChunkKey × TableEvictionTracker} (hp : p ∈ st.trackers)
    {tr : TableEvictionTracker}
    (h : lookupTracker st.trackers p.1 = some tr) : p.2 = tr := by
  obtain ⟨p1, p2⟩ := p
  have h2 : lookupTracker st.trackers p1 = some p2 :=
    mem_lookupTracker hinv.ndKeys hp
  rw [h2] at h
  cases h
  rfl

/-- The common core of the insertion-preservation proofs: after the eviction
loop succeeded, touching the key in the LRU, recording it in
`cached_chunks_` and bumping `num_pages_` by the insertion size preserves the
invariant — stated for any final file-page and byte maps that agree with the
loop's outside the key and satisfy the page bound at the key (in `cacheChunk`
the subsequent `putBuffer` sets them; in `cacheTableChunks` they are already
set). -/
theorem inserted_state_inv (st : CacheState) (key : ChunkKey) (needed : Nat)
    (tr : TableEvictionTracker) (hinv : CacheInv st)
    (htr : lookupTracker st.trackers (tableKeyOf key) = some tr)
    (hok : (evictLoop needed st.maxPagesPerTable tr.queue tr.numPages
      st.cachedChunks st.fmPages).2 = true)
    (pgF bF : ChunkKey → Nat)
    (hpgF : ∀ x, x ≠ key → pgF x =
      (evictLoop needed st.maxPagesPerTable tr.queue tr.numPages
        st.cachedChunks st.fmPages).1.pg x)
    (hpgk : pgF key ≤ needed)
    (hbF : ∀ x, x ≠ key → bF x = st.fmBytes x)
    (hpbk : pgF key ≤ ceilDivNat (bF key) st.pageSize) :
    CacheInv { st with
      trackers := updateTracker st.trackers (tableKeyOf key)
        ⟨touchChunkQueue (evictLoop needed st.maxPagesPerTable tr.queue
            tr.numPages st.cachedChunks st.fmPages).1.queue key,
          (evictLoop needed st.maxPagesPerTable tr.queue tr.numPages
            st.cachedChunks st.fmPages).1.np + needed⟩,
      cachedChunks := insertKey key
        (evictLoop needed st.maxPagesPerTable tr.queue tr.numPages
          st.cachedChunks st.fmPages).1.cached,
      fmPages := pgF, fmBytes := bF } := by
  have hptr : (tableKeyOf key, tr) ∈ st.trackers := lookupTracker_mem htr
  obtain ⟨hqnd, hqown, hqsub, hqsum, hqmx⟩ := hinv.trackerOk _ hptr
  obtain ⟨e1, e2, e3, e4, e5, e6, e7, e8, e9, e10, e11⟩ :=
    evictLoop_inv needed st.maxPagesPerTable tr.queue tr.numPages
      st.cachedChunks st.fmPages hqnd hqsum hinv.ndCached
  set ctx := (evictLoop needed st.maxPagesPerTable tr.queue tr.numPages
    st.cachedChunks st.fmPages).1 with hctx
  have hkey_ne : ∀ x ∈ eraseKey ctx.queue key, x ≠ key :=
    fun x hx => ((mem_eraseKey_of_nodup e2).mp hx).1
  refine ⟨insertKey_nodup e4, ?_, ?_, ?_, ?_⟩
  · show (List.map Prod.fst (updateTracker st.trackers (tableKeyOf key) _)).Nodup
    rw [updateTracker_map_fst]
    exact hinv.ndKeys
  · intro p hp
    rcases (mem_updateTracker hinv.ndKeys htr).mp hp with rfl | ⟨hpm, hpne⟩
    · refine ⟨?_, ?_, ?_, ?_, ?_⟩
      · exact nodup_append_single (eraseKey_nodup key e2)
          (not_mem_eraseKey_self e2)
      · intro k hk
        rcases List.mem_append.mp hk with hk | hk
        · exact hqown k (e1.subset (eraseKey_subset hk))
        · rw [List.mem_singleton.mp hk]
      · intro k hk
        rcases List.mem_append.mp hk with hk | hk
        · have hkq : k ∈ ctx.queue := eraseKey_subset hk
          have : k ∈ ctx.cached :=
            (e9 k hkq).mpr (hqsub k (e1.subset hkq))
          exact mem_insertKey.mpr (Or.inr this)
        · rw [List.mem_singleton.mp hk]
          exact self_mem_insertKey key _
      · show pagesSum pgF (touchChunkQueue ctx.queue key) ≤ ctx.np + needed
        unfold touchChunkQueue
        rw [pagesSum_append_single]
        have h1 : pagesSum pgF (eraseKey ctx.queue key) =
            pagesSum ctx.pg (eraseKey ctx.queue key) :=
          pagesSum_congr (fun k hk => hpgF k (hkey_ne k hk))
        have h2 : pagesSum ctx.pg (eraseKey ctx.queue key) ≤
            pagesSum ctx.pg ctx.queue := pagesSum_eraseKey_le
        omega
      · show ctx.np + needed ≤ st.maxPagesPerTable
        exact e6 hok
    · obtain ⟨hnd', hown', hsub', hsum', hmx'⟩ := hinv.trackerOk p hpm
      have hnotq : ∀ k ∈ p.2.queue, k ∉ tr.queue := by
        intro k hk hkq
        exact hpne ((hown' k hk).symm.trans (hqown k hkq))
      have hne_key : ∀ k ∈ p.2.queue, k ≠ key := by
        intro k hk he
        exact hpne (he ▸ (hown' k hk).symm)
      refine ⟨hnd', hown', ?_, ?_, hmx'⟩
      · intro k hk
        have : k ∈ ctx.cached :=
          (e8 k (hnotq k hk)).2.mpr (hsub' k hk)
        exact mem_insertKey.mpr (Or.inr this)
      · show pagesSum pgF p.2.queue ≤ p.2.numPages
        have : pagesSum pgF p.2.queue = pagesSum st.fmPages p.2.queue :=
          pagesSum_congr (fun k hk => by
            rw [hpgF k (hne_key k hk), (e8 k (hnotq k hk)).1])
        omega
  · intro k hk
    rcases mem_insertKey.mp hk with rfl | hk
    · refine ⟨(k.take 2, ⟨touchChunkQueue ctx.queue k, ctx.np + needed⟩),
        (mem_updateTracker hinv.ndKeys htr).mpr (Or.inl rfl), rfl, ?_⟩
      unfold touchChunkQueue
      exact List.mem_append.mpr (Or.inr (List.mem_singleton.mpr rfl))
    · have hkst : k ∈ st.cachedChunks := e7 k hk
      obtain ⟨p, hpm, hp1, hpq⟩ := hinv.cachedInQueue k hkst
      by_cases hpt : p.1 = tableKeyOf key
      · have : p.2 = tr := tracker_unique hinv hpm (hpt ▸ htr)
        have hktr : k ∈ tr.queue := this ▸ hpq
        have hkq : k ∈ ctx.queue := e10 k hktr hk
        refine ⟨(tableKeyOf key,
          ⟨touchChunkQueue ctx.queue key, ctx.np + needed⟩),
          (mem_updateTracker hinv.ndKeys htr).mpr (Or.inl rfl),
          by rw [hpt] at hp1; exact hp1, ?_⟩
        unfold touchChunkQueue
        by_cases hkk : k = key
        · exact List.mem_append.mpr (Or.inr (List.mem_singleton.mpr hkk))
        · exact List.mem_append.mpr
            (Or.inl ((mem_eraseKey_of_nodup e2).mpr ⟨hkk, hkq⟩))
      · exact ⟨p, (mem_updateTracker hinv.ndKeys htr).mpr
          (Or.inr ⟨hpm, hpt⟩), hp1, hpq⟩
  · intro x
    by_cases hx : x = key
    · subst hx
      exact hpbk
    · show pgF x ≤ ceilDivNat (bF x) st.pageSize
      rw [hpgF x hx, hbF x hx]
      exact le_trans (e11 x) (hinv.pagesLe x)

/-- When the eviction loop ran dry (`NoEntryFoundException`), the partially
evicted state left behind still satisfies the invariant. -/
theorem aborted_state_inv (st : CacheState) (key : ChunkKey) (needed : Nat)
    (tr : TableEvictionTracker) (hinv : CacheInv st)
    (htr : lookupTracker st.trackers (tableKeyOf key) = some tr) :
    CacheInv { st with
      trackers := updateTracker st.trackers (tableKeyOf key)
        ⟨(evictLoop needed st.maxPagesPerTable tr.queue tr.numPages
            st.cachedChunks st.fmPages).1.queue,
          (evictLoop needed st.maxPagesPerTable tr.queue tr.numPages
            st.cachedChunks st.fmPages).1.np⟩,
      cachedChunks := (evictLoop needed st.maxPagesPerTable tr.queue
        tr.numPages st.cachedChunks st.fmPages).1.cached,
      fmPages := (evictLoop needed st.maxPagesPerTable tr.queue tr.numPages
        st.cachedChunks st.fmPages).1.pg } := by
  have hptr : (tableKeyOf key, tr) ∈ st.trackers := lookupTracker_mem htr
  obtain ⟨hqnd, hqown, hqsub, hqsum, hqmx⟩ := hinv.trackerOk _ hptr
  obtain ⟨e1, e2, e3, e4, e5, e6, e7, e8, e9, e10, e11⟩ :=
    evictLoop_inv needed st.maxPagesPerTable tr.queue tr.numPages
      st.cachedChunks st.fmPages hqnd hqsum hinv.ndCached
  set ctx := (evictLoop needed st.maxPagesPerTable tr.queue tr.numPages
    st.cachedChunks st.fmPages).1 with hctx
  refine ⟨e4, ?_, ?_, ?_, ?_⟩
  · show (List.map Prod.fst (updateTracker st.trackers (tableKeyOf key) _)).Nodup
    rw [updateTracker_map_fst]
    exact hinv.ndKeys
  · intro p hp
    rcases (mem_updateTracker hinv.ndKeys htr).mp hp with rfl | ⟨hpm, hpne⟩
    · refine ⟨e2, fun k hk => hqown k (e1.subset hk), ?_, e3, le_trans e5 hqmx⟩
      intro k hk
      exact (e9 k hk).mpr (hqsub k (e1.subset hk))
    · obtain ⟨hnd', hown', hsub', hsum', hmx'⟩ := hinv.trackerOk p hpm
      have hnotq : ∀ k ∈ p.2.queue, k ∉ tr.queue := by
        intro k hk hkq
        exact hpne ((hown' k hk).symm.trans (hqown k hkq))
      refine ⟨hnd', hown', ?_, ?_, hmx'⟩
      · intro k hk
        exact (e8 k (hnotq k hk)).2.mpr (hsub' k hk)
      · show pagesSum ctx.pg p.2.queue ≤ p.2.numPages
        have : pagesSum ctx.pg p.2.queue = pagesSum st.fmPages p.2.queue :=
          pagesSum_congr (fun k hk => (e8 k (hnotq k hk)).1)
        omega
  · intro k hk
    have hkst : k ∈ st.cachedChunks := e7 k hk
    obtain ⟨p, hpm, hp1, hpq⟩ := hinv.cachedInQueue k hkst
    by_cases hpt : p.1 = tableKeyOf key
    · have : p.2 = tr := tracker_unique hinv hpm (hpt ▸ htr)
      have hktr : k ∈ tr.queue := this ▸ hpq
      refine ⟨(tableKeyOf key, ⟨ctx.queue, ctx.np⟩),
        (mem_updateTracker hinv.ndKeys htr).mpr (Or.inl rfl),
        by rw [hpt] at hp1; exact hp1, e10 k hktr hk⟩
    · exact ⟨p, (mem_updateTracker hinv.ndKeys htr).mpr
        (Or.inr ⟨hpm, hpt⟩), hp1, hpq⟩
  · intro x
    exact le_trans (e11 x) (hinv.pagesLe x)

end CacheInvariant

section CacheOpPreservation

theorem lookupTracker_none_not_mem_keys
    {trs : List (ChunkKey × TableEvictionTracker)} {t : ChunkKey}
    (h : lookupTracker trs t = none) : t ∉ trs.map Prod.fst := by
  induction trs with
  | nil => simp
  | cons p rest ih =>
    obtain ⟨p1, p2⟩ := p
    unfold lookupTracker at h
    by_cases hp : p1 = t
    · rw [if_pos hp] at h
      cases h
    · rw [if_neg hp] at h
      simp only [List.map_cons, List.mem_cons]
      rintro (rfl | hm)
      · exact hp rfl
      · exact ih h hm

/-- A rejected insertion (`num_pages_for_chunk > max_pages_per_table_`)
leaves the cache state unchanged. -/
theorem insert_rejected_eq (st : CacheState) (key : ChunkKey) (size : Nat)
    (st1 : CacheState)
    (h : insertChunkIntoEvictionAlg st key size = (InsRes.rejected, st1)) :
    st1 = st := by
  unfold insertChunkIntoEvictionAlg at h
  split at h
  · simp at h
  · split at h
    · injection h with h1 h2
      exact h2.symm
    · split at h
      · simp at h
      · simp at h

/-- An aborted insertion (missing tracker, or `NoEntryFoundException` from
the eviction loop) leaves an invariant-preserving state behind. -/
theorem insert_aborted_inv (st : CacheState) (key : ChunkKey) (size : Nat)
    (st1 : CacheState) (hinv : CacheInv st)
    (h : insertChunkIntoEvictionAlg st key size = (InsRes.aborted, st1)) :
    CacheInv st1 := by
  unfold insertChunkIntoEvictionAlg at h
  split at h
  · injection h with h1 h2
    exact h2 ▸ hinv
  · rename_i tr htr
    split at h
    · simp at h
    · split at h
      · rename_i ctx hev
        injection h with h1 h2
        subst h2
        have H := aborted_state_inv st key (ceilDivNat size st.pageSize) tr
          hinv htr
        rw [hev] at H
        exact H
      · simp at h

/-- A successful insertion whose key's buffer already satisfies the page
bound for the inserted size (the `cacheTableChunks` path, where the wrapper
populated the buffer before the insert) preserves the invariant. -/
theorem insert_inserted_inv (st : CacheState) (key : ChunkKey) (size : Nat)
    (st1 : CacheState) (hinv : CacheInv st)
    (hpg : st.fmPages key ≤ ceilDivNat size st.pageSize)
    (hbs : st.fmBytes key = size)
    (h : insertChunkIntoEvictionAlg st key size = (InsRes.inserted, st1)) :
    CacheInv st1 := by
  unfold insertChunkIntoEvictionAlg at h
  split at h
  · simp at h
  · rename_i tr htr
    split at h
    · simp at h
    · split at h
      · simp at h
      · rename_i ctx hev
        injection h with h1 h2
        subst h2
        obtain ⟨hqnd, hqown, hqsub, hqsum, hqmx⟩ :=
          hinv.trackerOk _ (lookupTracker_mem htr)
        obtain ⟨e1, e2, e3, e4, e5, e6, e7, e8, e9, e10, e11⟩ :=
          evictLoop_inv (ceilDivNat size st.pageSize) st.maxPagesPerTable
            tr.queue tr.numPages st.cachedChunks st.fmPages hqnd hqsum
            hinv.ndCached
        have hpgk : ctx.pg key ≤ ceilDivNat size st.pageSize := by
          have h1 := e11 key
          rw [hev] at h1
          exact le_trans h1 hpg
        have hpbk : ctx.pg key ≤ ceilDivNat (st.fmBytes key) st.pageSize := by
          rw [hbs]
          exact hpgk
        have H := inserted_state_inv st key (ceilDivNat size st.pageSize) tr
          hinv htr (by rw [hev]) ctx.pg st.fmBytes
          (by rw [hev]; exact fun x _ => rfl) hpgk (fun x _ => rfl) hpbk
        rw [hev] at H
        exact ⟨H.ndCached, H.ndKeys, H.trackerOk, H.cachedInQueue, H.pagesLe⟩

/-- `insertChunkIntoEvictionAlg`, called with the size of the key's existing
file buffer (the `cacheTableChunks` path), preserves the invariant. -/
theorem insert_self_inv (st : CacheState) (key : ChunkKey)
    (hinv : CacheInv st) :
    CacheInv (insertChunkIntoEvictionAlg st key (st.fmBytes key)).2 := by
  rcases hres : insertChunkIntoEvictionAlg st key (st.fmBytes key)
    with ⟨res, st1⟩
  cases res with
  | inserted =>
    exact insert_inserted_inv st key (st.fmBytes key) st1 hinv
      (hinv.pagesLe key) rfl hres
  | rejected => exact (insert_rejected_eq st key _ st1 hres) ▸ hinv
  | aborted => exact insert_aborted_inv st key _ st1 hinv hres

/-- After a successful insertion, the state patched by `putBuffer` (which
sets the key's byte size and page count) still satisfies the invariant; this
is the `cacheChunk` path. -/
theorem insert_inserted_patched_inv (st : CacheState) (key : ChunkKey)
    (size : Nat) (st1 : CacheState) (hinv : CacheInv st)
    (h : insertChunkIntoEvictionAlg st key size = (InsRes.inserted, st1)) :
    CacheInv { putBufferFM st1 key size with
      numChunksAdded := st1.numChunksAdded + 1,
      cachedMetadata := insertKey key st1.cachedMetadata } := by
  unfold insertChunkIntoEvictionAlg at h
  split at h
  · simp at h
  · rename_i tr htr
    split at h
    · simp at h
    · split at h
      · simp at h
      · rename_i ctx hev
        injection h with h1 h2
        subst h2
        have H := inserted_state_inv st key (ceilDivNat size st.pageSize) tr
          hinv htr (by rw [hev])
          (updNat ctx.pg key (ceilDivNat size st.pageSize))
          (updNat st.fmBytes key size)
          (by rw [hev]; exact fun x hx => updNat_ne ctx.pg _ hx)
          (by rw [updNat_self])
          (fun x hx => updNat_ne st.fmBytes size hx)
          (by rw [updNat_self, updNat_self])
        rw [hev] at H
        exact ⟨H.ndCached, H.ndKeys, H.trackerOk, H.cachedInQueue, H.pagesLe⟩

/-- `cacheChunk` preserves the invariant (the `putBuffer` following a
successful insertion re-establishes the page bound at the new key). -/
theorem cacheChunk_inv (st : CacheState) (key : ChunkKey) (size : Nat)
    (hinv : CacheInv st) : CacheInv (cacheChunk st key size) := by
  unfold cacheChunk
  rcases hres : insertChunkIntoEvictionAlg st key size with ⟨res, st1⟩
  cases res with
  | inserted => exact insert_inserted_patched_inv st key size st1 hinv hres
  | rejected => exact (insert_rejected_eq st key size st1 hres) ▸ hinv
  | aborted => exact insert_aborted_inv st key size st1 hinv hres

/-- `createTrackerMapEntryIfNoneExists` preserves the invariant. -/
theorem createTracker_inv (st : CacheState) (t : ChunkKey)
    (hinv : CacheInv st) :
    CacheInv (createTrackerMapEntryIfNoneExists st t) := by
  unfold createTrackerMapEntryIfNoneExists
  by_cases hk : isTableKey t = true
  · rw [if_pos hk]
    cases hlk : lookupTracker st.trackers t with
    | some tr => exact hinv
    | none =>
      refine ⟨hinv.ndCached, ?_, ?_, ?_, hinv.pagesLe⟩
      · show (List.map Prod.fst (st.trackers ++ [(t, ⟨[], 0⟩)])).Nodup
        rw [List.map_append]
        exact nodup_append_single hinv.ndKeys
          (lookupTracker_none_not_mem_keys hlk)
      · intro p hp
        rcases List.mem_append.mp hp with hp | hp
        · exact hinv.trackerOk p hp
        · rw [List.mem_singleton.mp hp]
          refine ⟨List.nodup_nil, ?_, ?_, ?_, Nat.zero_le _⟩
          · intro k hk'
            cases hk'
          · intro k hk'
            cases hk'
          · rw [pagesSum_nil]
      · intro k hk'
        obtain ⟨p, hpm, hp1, hpq⟩ := hinv.cachedInQueue k hk'
        exact ⟨p, List.mem_append.mpr (Or.inl hpm), hp1, hpq⟩
  · rw [if_neg hk]
    exact hinv

/-- The populate pass of `getChunkBuffersForCaching` +
`populateChunkBuffers` preserves the invariant: it only writes buffers that
are not cached, hence (by the invariant) in no LRU queue. -/
theorem populateFold_inv (chunks : List (ChunkKey × Nat)) (st : CacheState)
    (hinv : CacheInv st) (hnc : ∀ p ∈ chunks, p.1 ∉ st.cachedChunks) :
    CacheInv (chunks.foldl (fun s p =>
      { s with
        fmBytes := updNat s.fmBytes p.1 p.2,
        fmPages := updNat s.fmPages p.1 (ceilDivNat p.2 s.pageSize) }) st) := by
  induction chunks generalizing st with
  | nil => exact hinv
  | cons c rest ih =>
    rw [List.foldl_cons]
    have hc1 : c.1 ∉ st.cachedChunks := hnc c (List.mem_cons_self c rest)
    have hstep : CacheInv { st with
        fmBytes := updNat st.fmBytes c.1 c.2,
        fmPages := updNat st.fmPages c.1 (ceilDivNat c.2 st.pageSize) } := by
      refine ⟨hinv.ndCached, hinv.ndKeys, ?_, hinv.cachedInQueue, ?_⟩
      · intro p hp
        obtain ⟨hnd', hown', hsub', hsum', hmx'⟩ := hinv.trackerOk p hp
        refine ⟨hnd', hown', hsub', ?_, hmx'⟩
        show pagesSum (updNat st.fmPages c.1 _) p.2.queue ≤ p.2.numPages
        have : pagesSum (updNat st.fmPages c.1
            (ceilDivNat c.2 st.pageSize)) p.2.queue =
            pagesSum st.fmPages p.2.queue :=
          pagesSum_congr (fun k hk =>
            updNat_ne st.fmPages _ (fun he => hc1 (he ▸ hsub' k hk)))
        omega
      · intro k
        by_cases hkc : k = c.1
        · show updNat st.fmPages c.1 (ceilDivNat c.2 st.pageSize) k ≤
            ceilDivNat (updNat st.fmBytes c.1 c.2 k) st.pageSize
          rw [hkc, updNat_self, updNat_self]
        · show updNat st.fmPages c.1 (ceilDivNat c.2 st.pageSize) k ≤
            ceilDivNat (updNat st.fmBytes c.1 c.2 k) st.pageSize
          rw [updNat_ne st.fmPages _ hkc, updNat_ne st.fmBytes c.2 hkc]
          exact hinv.pagesLe k
    exact ih _ hstep (fun p hp => hnc p (List.mem_cons_of_mem c hp))

theorem populate_inv (st : CacheState) (chunks : List (ChunkKey × Nat))
    (hinv : CacheInv st) : CacheInv (populateChunkBuffers st chunks) := by
  unfold populateChunkBuffers
  split
  · rename_i hguard
    rw [List.all_eq_true] at hguard
    refine populateFold_inv chunks st hinv ?_
    intro p hp
    have := hguard p hp
    simp only [Bool.and_eq_true, decide_eq_true_eq] at this
    exact this.1.1
  · exact hinv

/-- The body loop of `cacheTableChunks` preserves the invariant. -/
theorem cacheTableChunksLoop_inv (keys : List ChunkKey) (t0 : ChunkKey)
    (st : CacheState) (hinv : CacheInv st) :
    CacheInv (cacheTableChunksLoop t0 st keys) := by
  induction keys generalizing st with
  | nil => exact hinv
  | cons k rest ih =>
    unfold cacheTableChunksLoop
    split
    · have hinv' : CacheInv { st with numChunksAdded := st.numChunksAdded + 1 } :=
        ⟨hinv.ndCached, hinv.ndKeys, hinv.trackerOk, hinv.cachedInQueue,
          hinv.pagesLe⟩
      have H := insert_self_inv
        { st with numChunksAdded := st.numChunksAdded + 1 } k hinv'
      rcases hres : insertChunkIntoEvictionAlg
          { st with numChunksAdded := st.numChunksAdded + 1 } k
          (st.fmBytes k) with ⟨res, st1⟩
      have hst1 : CacheInv st1 := by
        rw [hres] at H
        exact H
      cases res with
      | aborted => exact hst1
      | inserted => exact ih st1 hst1
      | rejected => exact ih st1 hst1
    · exact hinv

theorem cacheTableChunks_inv (st : CacheState) (keys : List ChunkKey)
    (hinv : CacheInv st) : CacheInv (cacheTableChunks st keys) := by
  unfold cacheTableChunks
  cases keys with
  | nil => exact hinv
  | cons k0 rest =>
    exact cacheTableChunksLoop_inv _ _ _ (createTracker_inv st _ hinv)

/-- `eraseChunkByIterator` on a cached chunk preserves the invariant, erases
exactly that chunk from `cached_chunks_`, and leaves the metadata set, the
buffer-existence map, the byte map and the tracker keys unchanged. -/
theorem eraseChunkByIt_inv (st : CacheState) (k : ChunkKey)
    (hinv : CacheInv st) (hk : k ∈ st.cachedChunks) :
    CacheInv (eraseChunkByIt st k) ∧
    (eraseChunkByIt st k).cachedChunks = eraseKey st.cachedChunks k ∧
    (eraseChunkByIt st k).cachedMetadata = st.cachedMetadata ∧
    (eraseChunkByIt st k).fmExists = st.fmExists ∧
    (eraseChunkByIt st k).maxPagesPerTable = st.maxPagesPerTable := by
  obtain ⟨p, hpm, hp1, hpq⟩ := hinv.cachedInQueue k hk
  have hlk : lookupTracker st.trackers (tableKeyOf k) = some p.2 := by
    have hpm2 : (p.1, p.2) ∈ st.trackers := by
      rw [Prod.mk.eta]
      exact hpm
    have h0 : lookupTracker st.trackers p.1 = some p.2 :=
      mem_lookupTracker hinv.ndKeys hpm2
    rw [hp1] at h0
    exact h0
  unfold eraseChunkByIt
  rw [hlk]
  obtain ⟨hqnd, hqown, hqsub, hqsum, hqmx⟩ := hinv.trackerOk p hpm
  refine ⟨⟨eraseKey_nodup k hinv.ndCached, ?_, ?_, ?_, ?_⟩, rfl, rfl, rfl, rfl⟩
  · show (List.map Prod.fst (updateTracker st.trackers (tableKeyOf k) _)).Nodup
    rw [updateTracker_map_fst]
    exact hinv.ndKeys
  · intro q hq
    rcases (mem_updateTracker hinv.ndKeys hlk).mp hq with rfl | ⟨hqm, hqne⟩
    · refine ⟨eraseKey_nodup k hqnd, ?_, ?_, ?_, ?_⟩
      · intro x hx
        rw [← hp1]
        exact hqown x (eraseKey_subset hx)
      · intro x hx
        obtain ⟨hne, hxq⟩ := (mem_eraseKey_of_nodup hqnd).mp hx
        exact (mem_eraseKey_of_nodup hinv.ndCached).mpr ⟨hne, hqsub x hxq⟩
      · show pagesSum (updNat st.fmPages k 0) (eraseKey p.2.queue k) ≤
          p.2.numPages - st.fmPages k
        have h1 : pagesSum (updNat st.fmPages k 0) (eraseKey p.2.queue k) =
            pagesSum st.fmPages (eraseKey p.2.queue k) :=
          pagesSum_congr (fun x hx =>
            updNat_ne st.fmPages 0 ((mem_eraseKey_of_nodup hqnd).mp hx).1)
        have h2 : pagesSum st.fmPages p.2.queue =
            st.fmPages k + pagesSum st.fmPages (eraseKey p.2.queue k) :=
          pagesSum_eraseKey hpq
        omega
      · show p.2.numPages - st.fmPages k ≤ st.maxPagesPerTable
        omega
    · obtain ⟨hnd', hown', hsub', hsum', hmx'⟩ := hinv.trackerOk q hqm
      have hxnek : ∀ x ∈ q.2.queue, x ≠ k := by
        intro x hx he
        exact hqne (he ▸ (hown' x hx).symm)
      refine ⟨hnd', hown', ?_, ?_, hmx'⟩
      · intro x hx
        exact (mem_eraseKey_of_nodup hinv.ndCached).mpr
          ⟨hxnek x hx, hsub' x hx⟩
      · show pagesSum (updNat st.fmPages k 0) q.2.queue ≤ q.2.numPages
        have : pagesSum (updNat st.fmPages k 0) q.2.queue =
            pagesSum st.fmPages q.2.queue :=
          pagesSum_congr (fun x hx => updNat_ne st.fmPages 0 (hxnek x hx))
        omega
  · intro x hx
    obtain ⟨hne, hxc⟩ := (mem_eraseKey_of_nodup hinv.ndCached).mp hx
    obtain ⟨q, hqm, hq1, hqq⟩ := hinv.cachedInQueue x hxc
    by_cases hqt : q.1 = tableKeyOf k
    · have hq2 : q.2 = p.2 := tracker_unique hinv hqm (hqt ▸ hlk)
      refine ⟨(tableKeyOf k, ⟨eraseKey p.2.queue k,
        p.2.numPages - st.fmPages k⟩),
        (mem_updateTracker hinv.ndKeys hlk).mpr (Or.inl rfl),
        by rw [hqt] at hq1; exact hq1, ?_⟩
      exact (mem_eraseKey_of_nodup hqnd).mpr ⟨hne, hq2 ▸ hqq⟩
    · exact ⟨q, (mem_updateTracker hinv.ndKeys hlk).mpr
        (Or.inr ⟨hqm, hqt⟩), hq1, hqq⟩
  · intro x
    by_cases hx : x = k
    · subst hx
      show updNat st.fmPages x 0 x ≤ _
      rw [updNat_self]
      exact Nat.zero_le _
    · show updNat st.fmPages k 0 x ≤ _
      rw [updNat_ne st.fmPages 0 hx]
      exact hinv.pagesLe x

/-- The erase loop of `clearForTablePrefix`: preserves the invariant and
removes exactly the processed keys from `cached_chunks_`, leaving metadata
and buffer-existence untouched. -/
theorem foldl_eraseChunkByIt (l : List ChunkKey) (st : CacheState)
    (hinv : CacheInv st) (hl : l.Nodup)
    (hsub : ∀ k ∈ l, k ∈ st.cachedChunks) :
    CacheInv (l.foldl eraseChunkByIt st) ∧
    (∀ x, x ∈ (l.foldl eraseChunkByIt st).cachedChunks ↔
      x ∈ st.cachedChunks ∧ x ∉ l) ∧
    (l.foldl eraseChunkByIt st).cachedMetadata = st.cachedMetadata ∧
    (l.foldl eraseChunkByIt st).fmExists = st.fmExists := by
  induction l generalizing st with
  | nil =>
    refine ⟨hinv, ?_, rfl, rfl⟩
    intro x
    simp
  | cons k rest ih =>
    rw [List.nodup_cons] at hl
    rw [List.foldl_cons]
    obtain ⟨hinv1, hch, hmd, hfe, _⟩ := eraseChunkByIt_inv st k hinv
      (hsub k (List.mem_cons_self k rest))
    have hsub' : ∀ x ∈ rest, x ∈ (eraseChunkByIt st k).cachedChunks := by
      intro x hx
      rw [hch, mem_eraseKey_of_nodup hinv.ndCached]
      exact ⟨fun he => hl.1 (he ▸ hx), hsub x (List.mem_cons_of_mem k hx)⟩
    obtain ⟨H1, H2, H3, H4⟩ := ih (eraseChunkByIt st k) hinv1 hl.2 hsub'
    refine ⟨H1, ?_, H3.trans hmd, H4.trans hfe⟩
    intro x
    rw [H2 x, hch, mem_eraseKey_of_nodup hinv.ndCached]
    constructor
    · rintro ⟨⟨hxk, hxc⟩, hxr⟩
      refine ⟨hxc, ?_⟩
      intro hm
      rcases List.mem_cons.mp hm with rfl | hm
      · exact hxk rfl
      · exact hxr hm
    · rintro ⟨hxc, hxm⟩
      exact ⟨⟨fun he => hxm (he ▸ List.mem_cons_self k rest), hxc⟩,
        fun hm => hxm (List.mem_cons_of_mem k hm)⟩

/-- `removeTableRelatedDS` preserves the invariant. -/
theorem removeTableRelatedDS_inv (st : CacheState) (t : ChunkKey)
    (hinv : CacheInv st) : CacheInv (removeTableRelatedDS st t) := by
  refine ⟨hinv.ndCached, hinv.ndKeys, ?_, hinv.cachedInQueue, ?_⟩
  · intro p hp
    obtain ⟨hnd', hown', hsub', hsum', hmx'⟩ := hinv.trackerOk p hp
    refine ⟨hnd', hown', hsub', ?_, hmx'⟩
    show pagesSum (fun k => if tableKeyOf k = t then 0 else st.fmPages k)
      p.2.queue ≤ p.2.numPages
    have : pagesSum (fun k => if tableKeyOf k = t then 0 else st.fmPages k)
        p.2.queue ≤ pagesSum st.fmPages p.2.queue := by
      refine pagesSum_mono ?_
      intro k _
      by_cases hkt : tableKeyOf k = t
      · rw [if_pos hkt]
        exact Nat.zero_le _
      · rw [if_neg hkt]
    omega
  · intro k
    by_cases hkt : tableKeyOf k = t
    · show (if tableKeyOf k = t then 0 else st.fmPages k) ≤
        ceilDivNat (if tableKeyOf k = t then 0 else st.fmBytes k) st.pageSize
      rw [if_pos hkt, if_pos hkt]
      exact Nat.zero_le _
    · show (if tableKeyOf k = t then 0 else st.fmPages k) ≤
        ceilDivNat (if tableKeyOf k = t then 0 else st.fmBytes k) st.pageSize
      rw [if_neg hkt, if_neg hkt]
      exact hinv.pagesLe k

/-- `clearForTablePrefix` preserves the invariant. -/
theorem clearForTable_inv (st : CacheState) (pfx : ChunkKey)
    (hinv : CacheInv st) : CacheInv (clearForTable st pfx) := by
  unfold clearForTable
  split
  · obtain ⟨H1, _, _, _⟩ := foldl_eraseChunkByIt
      (st.cachedChunks.filter (fun k => inKeyRange pfx k)) st hinv
      (hinv.ndCached.filter _)
      (fun k hk => (List.mem_filter.mp hk).1)
    refine removeTableRelatedDS_inv _ pfx ⟨H1.ndCached, H1.ndKeys,
      H1.trackerOk, H1.cachedInQueue, H1.pagesLe⟩
  · exact hinv

end CacheOpPreservation

section CacheSequences

/-- The cache operations quantified over by the page-budget invariant:
`cacheChunk`, `cacheTableChunks` (preceded, as in the code, by the
`getChunkBuffersForCaching` + wrapper populate pass that fills the buffers it
then records; the `Nat` of each pair is the byte size the wrapper wrote), and
`clearForTablePrefix`. -/
inductive CacheOp where
  | opCacheChunk (key : ChunkKey) (size : Nat)
  | opCacheTableChunks (chunks : List (ChunkKey × Nat))
  | opClearForTable (pfx : ChunkKey)

/-- Apply one cache operation. -/
def applyOp (st : CacheState) : CacheOp → CacheState
  | .opCacheChunk k sz => cacheChunk st k sz
  | .opCacheTableChunks chunks =>
    cacheTableChunks (populateChunkBuffers st chunks) (chunks.map Prod.fst)
  | .opClearForTable pfx => clearForTable st pfx

/-- Apply a sequence of cache operations. -/
def applyOps (st : CacheState) : List CacheOp → CacheState
  | [] => st
  | op :: rest => applyOps (applyOp st op) rest

/-- The state of a freshly constructed `ForeignStorageCache` (empty sets, no
trackers, empty file manager), with page size `ps`, file-manager constant
`MAX_FILE_N_PAGES = M` and per-table page budget `mx` (as computed by the
constructor's `setLimit`). -/
def initCacheState (ps M mx : Nat) : CacheState :=
  ⟨[], [], [], fun _ => false, fun _ => 0, fun _ => 0, [], mx, ps, M,
    mx * ps, 0, 0⟩

theorem initCacheState_inv (ps M mx : Nat) :
    CacheInv (initCacheState ps M mx) := by
  refine ⟨List.nodup_nil, List.nodup_nil, ?_, ?_, ?_⟩
  · intro p hp
    cases hp
  · intro k hk
    cases hk
  · intro k
    exact Nat.zero_le _

theorem applyOp_inv (st : CacheState) (op : CacheOp) (hinv : CacheInv st) :
    CacheInv (applyOp st op) := by
  cases op with
  | opCacheChunk k sz => exact cacheChunk_inv st k sz hinv
  | opCacheTableChunks chunks =>
    exact cacheTableChunks_inv _ _ (populate_inv st chunks hinv)
  | opClearForTable pfx => exact clearForTable_inv st pfx hinv

theorem applyOps_inv (st : CacheState) (ops : List CacheOp)
    (hinv : CacheInv st) : CacheInv (applyOps st ops) := by
  induction ops generalizing st with
  | nil => exact hinv
  | cons op rest ih => exact ih _ (applyOp_inv st op hinv)

/-- **C6.** After any sequence of `cacheChunk`, `cacheTableChunks` and
`clearForTablePrefix` operations from a fresh cache, every table's eviction
tracker satisfies `num_pages_ ≤ max_pages_per_table_`; moreover an insertion
whose own page count `ceil(chunk_size / page_size)` exceeds
`max_pages_per_table_` is rejected outright, leaving the state unchanged. -/
theorem claim_C6 (ps M mx : Nat) (ops : List CacheOp) :
    (∀ t tr,
      lookupTracker (applyOps (initCacheState ps M mx) ops).trackers t =
        some tr →
      tr.numPages ≤ (applyOps (initCacheState ps M mx) ops).maxPagesPerTable) ∧
    (∀ (st : CacheState) (k : ChunkKey) (sz : Nat)
        (tr : TableEvictionTracker),
      lookupTracker st.trackers (tableKeyOf k) = some tr →
      ceilDivNat sz st.pageSize > st.maxPagesPerTable →
      insertChunkIntoEvictionAlg st k sz = (InsRes.rejected, st)) := by
  constructor
  · intro t tr hlk
    have hinv := applyOps_inv (initCacheState ps M mx) ops
      (initCacheState_inv ps M mx)
    exact (hinv.trackerOk _ (lookupTracker_mem hlk)).2.2.2.2
  · intro st k sz tr htr hbig
    unfold insertChunkIntoEvictionAlg
    simp only [htr]
    rw [if_pos hbig]

/-- Witness for C6: one `cacheTableChunks` op from the fresh cache creates
the table tracker (with zero pages) for table `[1, 1]`. -/
theorem claim_C6_witness :
    TableEvictionTracker.numPages ⟨[], 0⟩ ≤
      (applyOps (initCacheState 1 2 2)
        [CacheOp.opCacheTableChunks [([1, 1, 1, 0], 3)]]).maxPagesPerTable :=
  (claim_C6 1 2 2 [CacheOp.opCacheTableChunks [([1, 1, 1, 0], 3)]]).1
    [1, 1] ⟨[], 0⟩ (by decide)

/-- The at-rest well-formedness of a cache: duplicate-free sets and tracker
keys, and every tracker's `num_pages_` exactly the total pages of its queued,
cached, own-table chunks. -/
def ConsistentState (st : CacheState) : Prop :=
  st.cachedChunks.Nodup ∧ (st.trackers.map Prod.fst).Nodup ∧
  ∀ p ∈ st.trackers,
    p.2.queue.Nodup ∧ (∀ k ∈ p.2.queue, tableKeyOf k = p.1) ∧
    (∀ k ∈ p.2.queue, k ∈ st.cachedChunks) ∧
    pagesSum st.fmPages p.2.queue = p.2.numPages

/-- The per-table loop of `setLimit` on a consistent cache terminates
normally and brings every tracker under the new bound. -/
theorem setLimitLoop_ok (mx : Nat)
    (trs : List (ChunkKey × TableEvictionTracker)) (cached : List ChunkKey)
    (pg : ChunkKey → Nat)
    (hkeys : (trs.map Prod.fst).Nodup) (hc : cached.Nodup)
    (h : ∀ p ∈ trs,
      p.2.queue.Nodup ∧ (∀ k ∈ p.2.queue, tableKeyOf k = p.1) ∧
      (∀ k ∈ p.2.queue, k ∈ cached) ∧
      pagesSum pg p.2.queue = p.2.numPages) :
    (setLimitLoop mx trs cached pg).2.2.2 = true ∧
    (∀ t tr, lookupTracker (setLimitLoop mx trs cached pg).1 t = some tr →
      tr.numPages ≤ mx) := by
  induction trs generalizing cached pg with
  | nil =>
    refine ⟨rfl, ?_⟩
    intro t tr hlk
    cases hlk
  | cons p0 rest ih =>
    obtain ⟨t0, tr0⟩ := p0
    simp only [List.map_cons, List.nodup_cons] at hkeys
    obtain ⟨hq0nd, hq0own, hq0sub, hq0sum⟩ :=
      h (t0, tr0) (List.mem_cons_self _ _)
    obtain ⟨e1, e2, e3, e4, e5, e6, e7, e8, e9, e10, e11⟩ :=
      evictLoop_inv 0 mx tr0.queue tr0.numPages cached pg hq0nd
        (le_of_eq hq0sum) hc
    have hok := evictLoop_ok 0 mx tr0.queue tr0.numPages cached pg hq0nd
      hq0sum hq0sub hc (Nat.zero_le mx)
    simp only [setLimitLoop]
    rcases hev : evictLoop 0 mx tr0.queue tr0.numPages cached pg
      with ⟨ctx, ok⟩
    rw [hev] at hok e4 e6 e8
    simp only at hok e4 e6 e8
    subst hok
    have hnp : ctx.np ≤ mx := by
      have := e6 rfl
      omega
    have h' : ∀ p ∈ rest,
        p.2.queue.Nodup ∧ (∀ k ∈ p.2.queue, tableKeyOf k = p.1) ∧
        (∀ k ∈ p.2.queue, k ∈ ctx.cached) ∧
        pagesSum ctx.pg p.2.queue = p.2.numPages := by
      intro p hp
      obtain ⟨hnd', hown', hsub', hsum'⟩ :=
        h p (List.mem_cons_of_mem _ hp)
      have hnotq : ∀ k ∈ p.2.queue, k ∉ tr0.queue := by
        intro k hk hkq
        have ht1 : tableKeyOf k = p.1 := hown' k hk
        have ht2 : tableKeyOf k = t0 := hq0own k hkq
        exact hkeys.1 (List.mem_map.mpr ⟨p, hp, by rw [← ht1, ht2]⟩)
      refine ⟨hnd', hown', ?_, ?_⟩
      · intro k hk
        exact (e8 k (hnotq k hk)).2.mpr (hsub' k hk)
      · rw [pagesSum_congr (fun k hk => (e8 k (hnotq k hk)).1)]
        exact hsum'
    obtain ⟨ihok, ihbound⟩ := ih ctx.cached ctx.pg hkeys.2 e4 h'
    refine ⟨?_, ?_⟩
    · show (setLimitLoop mx rest ctx.cached ctx.pg).2.2.2 = true
      exact ihok
    · show ∀ t tr, lookupTracker ((t0, ⟨ctx.queue, ctx.np⟩) ::
        (setLimitLoop mx rest ctx.cached ctx.pg).1) t = some tr →
        tr.numPages ≤ mx
      intro t tr hlk
      unfold lookupTracker at hlk
      by_cases ht : t0 = t
      · rw [if_pos ht] at hlk
        cases hlk
        exact hnp
      · rw [if_neg ht] at hlk
        exact ihbound t tr hlk

/-- **C7.** `setLimit(limit)` rejects a limit smaller than one file
(`page_size × MAX_FILE_N_PAGES`) with `CacheTooSmallException` and changes
nothing; for a limit of at least one file it sets
`max_pages_per_table_ = ceil(limit / (page_size × MAX_FILE_N_PAGES)) ×
MAX_FILE_N_PAGES` and evicts chunks from each table until every tracker's
page count fits under the new bound (stated for consistent at-rest
caches). -/
theorem claim_C7 (st : CacheState) (limit : Nat)
    (hcons : ConsistentState st) :
    (limit < st.pageSize * st.maxFileNPages →
      setLimit st limit = (some SetLimitErr.cacheTooSmall, st)) ∧
    (st.pageSize * st.maxFileNPages ≤ limit →
      (setLimit st limit).1 = none ∧
      (setLimit st limit).2.maxPagesPerTable =
        ceilDivNat limit (st.pageSize * st.maxFileNPages) *
          st.maxFileNPages ∧
      (∀ t tr, lookupTracker (setLimit st limit).2.trackers t = some tr →
        tr.numPages ≤ (setLimit st limit).2.maxPagesPerTable)) := by
  obtain ⟨hcnd, hknd, htrs⟩ := hcons
  constructor
  · intro hlt
    unfold setLimit
    rw [if_pos hlt]
  · intro hge
    unfold setLimit
    rw [if_neg (not_lt.mpr hge)]
    obtain ⟨hok, hbound⟩ := setLimitLoop_ok
      (maxPagesForLimit st.pageSize st.maxFileNPages limit) st.trackers
      st.cachedChunks st.fmPages hknd hcnd htrs
    rcases hsl : setLimitLoop
        (maxPagesForLimit st.pageSize st.maxFileNPages limit) st.trackers
        st.cachedChunks st.fmPages with ⟨trs', c', p', okr⟩
    rw [hsl] at hok hbound
    simp only at hok
    subst hok
    exact ⟨rfl, rfl, hbound⟩

/-- Witness for C7: a consistent one-table cache, page size 1,
`MAX_FILE_N_PAGES = 2`, limit 2. -/
theorem claim_C7_witness :
    (setLimit
      ⟨[[1, 1, 1, 0]], [[1, 1, 1, 0]], [([1, 1], ⟨[[1, 1, 1, 0]], 1⟩)],
        fun _ => true, fun k => if k = [1, 1, 1, 0] then 1 else 0,
        fun k => if k = [1, 1, 1, 0] then 1 else 0, [[1, 1, 1, 0]],
        4, 1, 2, 4, 1, 1⟩ 2).1 = none :=
  ((claim_C7
      ⟨[[1, 1, 1, 0]], [[1, 1, 1, 0]], [([1, 1], ⟨[[1, 1, 1, 0]], 1⟩)],
        fun _ => true, fun k => if k = [1, 1, 1, 0] then 1 else 0,
        fun k => if k = [1, 1, 1, 0] then 1 else 0, [[1, 1, 1, 0]],
        4, 1, 2, 4, 1, 1⟩ 2 (by
          refine ⟨by decide, by decide, ?_⟩
          intro p hp
          rcases List.mem_singleton.mp hp with rfl
          refine ⟨by decide, by decide, by decide, by decide⟩)).2
    (by decide)).1

end CacheSequences

section ClearForTableTheorems

/-- A chunk key in the erase range of a length-2 table prefix belongs to that
table: the range `[prefix, prefix ++ [INT_MAX]]` contains exactly keys whose
first two components equal the prefix (minus the extensions of
`prefix ++ [INT_MAX]` itself, which also start with the prefix). -/
theorem inKeyRange_tableKey {a b : Int} {k : ChunkKey}
    (h : inKeyRange [a, b] k = true) : tableKeyOf k = [a, b] := by
  unfold inKeyRange at h
  rw [Bool.and_eq_true] at h
  obtain ⟨h1, h2⟩ := h
  rw [Bool.not_eq_true'] at h1 h2
  simp only [List.cons_append, List.nil_append] at h2
  match k with
  | [] =>
    simp only [keyLt] at h1
    cases h1
  | [x] =>
    simp only [keyLt] at h1 h2
    by_cases hxa : x < a
    · rw [if_pos hxa] at h1
      cases h1
    · rw [if_neg hxa] at h1
      by_cases hax : a < x
      · rw [if_pos hax] at h2
        cases h2
      · rw [if_neg hax] at h1
        cases h1
  | x :: y :: rest =>
    simp only [keyLt] at h1 h2
    by_cases hxa : x < a
    · rw [if_pos hxa] at h1
      cases h1
    · rw [if_neg hxa] at h1
      by_cases hax : a < x
      · rw [if_pos hax] at h2
        cases h2
      · rw [if_neg hax] at h1
        rw [if_neg hax, if_neg hxa] at h2
        by_cases hyb : y < b
        · rw [if_pos hyb] at h1
          cases h1
        · rw [if_neg hyb] at h1
          by_cases hby : b < y
          · rw [if_pos hby] at h2
            cases h2
          · have hx : x = a := by omega
            have hy : y = b := by omega
            subst hx
            subst hy
            rfl

theorem not_inKeyRange_of_tableKey_ne {a b : Int} {k : ChunkKey}
    (h : tableKeyOf k ≠ [a, b]) : inKeyRange [a, b] k = false := by
  cases hr : inKeyRange [a, b] k with
  | false => rfl
  | true => exact absurd (inKeyRange_tableKey hr) h

/-- **C9.** For every table prefix of length 2, `clearForTablePrefix` removes
from `cached_chunks_` and `cached_metadata_` exactly the chunk keys lying
lexicographically between the prefix and the prefix extended with `INT_MAX`,
and removes the table's data from the file manager; cached entries of every
other table are unchanged.  (Stated over states satisfying the cache's
representation invariant, under which the tracker lookups of
`eraseChunkByIterator` cannot throw.) -/
theorem claim_C9 (st : CacheState) (pfx : ChunkKey) (hlen : pfx.length = 2)
    (hinv : CacheInv st) :
    (∀ k, k ∈ (clearForTable st pfx).cachedChunks ↔
      (k ∈ st.cachedChunks ∧ inKeyRange pfx k = false)) ∧
    (∀ k, k ∈ (clearForTable st pfx).cachedMetadata ↔
      (k ∈ st.cachedMetadata ∧ inKeyRange pfx k = false)) ∧
    (∀ k, tableKeyOf k = pfx → (clearForTable st pfx).fmExists k = false) ∧
    (∀ k, tableKeyOf k ≠ pfx →
      ((k ∈ (clearForTable st pfx).cachedChunks ↔ k ∈ st.cachedChunks) ∧
        (k ∈ (clearForTable st pfx).cachedMetadata ↔
          k ∈ st.cachedMetadata))) := by
  have hKey : isTableKey pfx = true := by
    unfold isTableKey
    exact decide_eq_true hlen
  obtain ⟨H1, H2, H3, H4⟩ := foldl_eraseChunkByIt
    (st.cachedChunks.filter (fun k => inKeyRange pfx k)) st hinv
    (hinv.ndCached.filter _) (fun k hk => (List.mem_filter.mp hk).1)
  unfold clearForTable
  rw [if_pos hKey]
  have hchunks : ∀ k, k ∈ (removeTableRelatedDS
      { (st.cachedChunks.filter (fun k => inKeyRange pfx k)).foldl
          eraseChunkByIt st with
        cachedMetadata :=
          ((st.cachedChunks.filter (fun k => inKeyRange pfx k)).foldl
            eraseChunkByIt st).cachedMetadata.filter
            (fun k => !inKeyRange pfx k) } pfx).cachedChunks ↔
      (k ∈ st.cachedChunks ∧ inKeyRange pfx k = false) := by
    intro k
    show k ∈ ((st.cachedChunks.filter (fun k => inKeyRange pfx k)).foldl
        eraseChunkByIt st).cachedChunks ↔ _
    rw [H2 k]
    constructor
    · rintro ⟨hkc, hkf⟩
      refine ⟨hkc, ?_⟩
      cases hr : inKeyRange pfx k with
      | false => rfl
      | true => exact absurd (List.mem_filter.mpr ⟨hkc, hr⟩) hkf
    · rintro ⟨hkc, hkf⟩
      refine ⟨hkc, fun hm => ?_⟩
      rw [(List.mem_filter.mp hm).2] at hkf
      cases hkf
  have hmeta : ∀ k, k ∈ (removeTableRelatedDS
      { (st.cachedChunks.filter (fun k => inKeyRange pfx k)).foldl
          eraseChunkByIt st with
        cachedMetadata :=
          ((st.cachedChunks.filter (fun k => inKeyRange pfx k)).foldl
            eraseChunkByIt st).cachedMetadata.filter
            (fun k => !inKeyRange pfx k) } pfx).cachedMetadata ↔
      (k ∈ st.cachedMetadata ∧ inKeyRange pfx k = false) := by
    intro k
    show k ∈ (((st.cachedChunks.filter (fun k => inKeyRange pfx k)).foldl
        eraseChunkByIt st).cachedMetadata.filter
        (fun k => !inKeyRange pfx k)) ↔ _
    rw [List.mem_filter, H3]
    constructor
    · rintro ⟨hm, hr⟩
      rw [Bool.not_eq_true'] at hr
      exact ⟨hm, hr⟩
    · rintro ⟨hm, hr⟩
      refine ⟨hm, ?_⟩
      rw [hr]
      rfl
  refine ⟨hchunks, hmeta, ?_, ?_⟩
  · intro k hk
    show (if tableKeyOf k = pfx then false else _) = false
    rw [if_pos hk]
  · intro k hk
    obtain ⟨a, b, rfl⟩ : ∃ a b : Int, pfx = [a, b] := by
      match pfx, hlen with
      | [a, b], _ => exact ⟨a, b, rfl⟩
    have hr : inKeyRange [a, b] k = false := not_inKeyRange_of_tableKey_ne hk
    constructor
    · rw [hchunks k]
      constructor
      · exact fun hh => hh.1
      · exact fun hh => ⟨hh, hr⟩
    · rw [hmeta k]
      constructor
      · exact fun hh => hh.1
      · exact fun hh => ⟨hh, hr⟩

/-- Witness for C9: a consistent state whose only cached metadata entry is a
chunk of table `[1, 2]`; clearing `[1, 2]` removes it. -/
theorem claim_C9_witness :
    ([1, 2, 1, 0] : ChunkKey) ∉ (clearForTable
      ⟨[], [[1, 2, 1, 0]], [], fun _ => false, fun _ => 0, fun _ => 0, [],
        2, 1, 2, 2, 0, 1⟩ [1, 2]).cachedMetadata := by
  intro hm
  have H := (claim_C9
    ⟨[], [[1, 2, 1, 0]], [], fun _ => false, fun _ => 0, fun _ => 0, [],
      2, 1, 2, 2, 0, 1⟩ [1, 2] (by decide)
    ⟨List.nodup_nil, List.nodup_nil, fun p hp => absurd hp (by simp),
      fun k hk => absurd hk (by simp), fun k => Nat.zero_le _⟩).2.1 [1, 2, 1, 0]
  have := (H.mp hm).2
  exact absurd this (by decide)

end ClearForTableTheorems

section CacheChunkMetadataTheorem

/-- The concrete failing state for C3: page size 1, per-table budget 1 page,
a tracker for table `[1, 1]`, nothing cached. -/
def c3FailState : CacheState :=
  ⟨[], [], [([1, 1], ⟨[], 0⟩)], fun _ => false, fun _ => 0, fun _ => 0, [],
    1, 1, 1, 1, 0, 0⟩

/-- **C3** (claim vs. code): caching a 2-byte chunk (2 pages) into a cache
whose table budget is 1 page is rejected by `insertChunkIntoEvictionAlg`, and
`cacheChunk` then does *nothing at all* — in particular the chunk key is NOT
recorded in `cached_metadata_`, because the `cached_metadata_.emplace` sits
inside the success branch.  The source's own TODO
("This needs to happen even if insertChunkIntoEvictionAlg() fails") says the
metadata record was meant to be unconditional, as the claim states — the code
contradicts its own documentation. -/
theorem claim_C3 :
    cacheChunk c3FailState [1, 1, 1, 0] 2 = c3FailState ∧
    ([1, 1, 1, 0] : ChunkKey) ∉
      (cacheChunk c3FailState [1, 1, 1, 0] 2).cachedMetadata ∧
    ([1, 1, 1, 0] : ChunkKey) ∉
      (cacheChunk c3FailState [1, 1, 1, 0] 2).cachedChunks := by
  refine ⟨rfl, ?_, ?_⟩
  · decide
  · decide

end CacheChunkMetadataTheorem

section RefreshAndFetchTheorems

/-- **C1.** For a table key cached in non-append mode, when the storage
metadata scan throws, `refreshTable(T, evict=false)` propagates the storage
error without modifying the cache: the scan happens before
`clearForTablePrefix`, so `cached_chunks_` and `cached_metadata_` (indeed the
whole cache state) are exactly what they were before the call; only the
table's temporary buffers are cleared, which happens up front. -/
theorem claim_C1 (m : CachingMgrState) (t : ChunkKey) (ws : ChunkKey → Nat)
    (ht : isTableKey t = true)
    (hmeta : hasCachedMetadataForKeyPfx m.cache t = true) :
    refreshTable m t false false (Except.error ()) ws =
      (some RefreshErr.storage,
        { cache := m.cache,
          tempBufMap := clearTempEntriesForTable m.tempBufMap t }) := by
  have hr : refreshTableInCache false (Except.error ()) ws t m.cache =
      (some RefreshErr.storage, m.cache) := by
    unfold refreshTableInCache
    rw [if_pos hmeta]
    rfl
  unfold refreshTable
  rw [if_pos ht, hr]
  rfl

/-- Witness for C1: a manager whose cache holds metadata for table `[1, 2]`;
refreshing with a failing scan reports the storage error. -/
theorem claim_C1_witness :
    (refreshTable
      ⟨⟨[], [[1, 2, 1, 0]], [], fun _ => false, fun _ => 0, fun _ => 0, [],
        2, 1, 2, 2, 0, 1⟩, fun _ => none⟩ [1, 2] false false
      (Except.error ()) (fun _ => 0)).1 = some RefreshErr.storage :=
  congrArg Prod.fst (claim_C1
    ⟨⟨[], [[1, 2, 1, 0]], [], fun _ => false, fun _ => 0, fun _ => 0, [],
      2, 1, 2, 2, 0, 1⟩, fun _ => none⟩ [1, 2] (fun _ => 0)
    (by decide) (by decide))

theorem fetchBuffer_of_tempBuf_none (m : FsMgrState) (k : ChunkKey)
    (numBytes : Nat) (familyKeys : List ChunkKey)
    (wrapperContent : ChunkKey → List Nat) (h : m.tempBufMap k = none) :
    ((fetchBuffer m k numBytes familyKeys wrapperContent).1).1 =
      FetchSource.wrapper := by
  unfold fetchBuffer fetchBufferIfTempBufferMapEntryExists
  rw [h]

/-- **C10.** A temporary chunk buffer serves at most one fetch: when
`temp_chunk_buffer_map_` holds a buffer for the key, `fetchBuffer` copies its
contents to the destination and erases the map entry, so an immediately
repeated `fetchBuffer` for the same key finds no temporary buffer and is
served through the data wrapper. -/
theorem claim_C10 (m : FsMgrState) (k : ChunkKey) (buf : List Nat)
    (n n2 : Nat) (fam fam2 : List ChunkKey) (wc wc2 : ChunkKey → List Nat)
    (hbuf : m.tempBufMap k = some buf) :
    (fetchBuffer m k n fam wc).1 = (FetchSource.tempBuffer, buf.take n) ∧
    (fetchBuffer m k n fam wc).2.tempBufMap k = none ∧
    ((fetchBuffer (fetchBuffer m k n fam wc).2 k n2 fam2 wc2).1).1 =
      FetchSource.wrapper := by
  have h1 : fetchBufferIfTempBufferMapEntryExists m k n =
      (some (buf.take n),
        ⟨fun x => if x = k then none else m.tempBufMap x⟩) := by
    unfold fetchBufferIfTempBufferMapEntryExists
    rw [hbuf]
  have h2 : fetchBuffer m k n fam wc =
      ((FetchSource.tempBuffer, buf.take n),
        ⟨fun x => if x = k then none else m.tempBufMap x⟩) := by
    unfold fetchBuffer
    rw [h1]
  refine ⟨by rw [h2], ?_, ?_⟩
  · rw [h2]
    show (if k = k then none else m.tempBufMap k) = none
    rw [if_pos rfl]
  · rw [h2]
    exact fetchBuffer_of_tempBuf_none _ k n2 fam2 wc2 (by
      show (if k = k then none else m.tempBufMap k) = none
      rw [if_pos rfl])

/-- Witness for C10: a temp buffer map holding `[1, 2, 3]` at key `[7]`; the
first fetch of 2 bytes is served from it. -/
theorem claim_C10_witness :
    (fetchBuffer ⟨fun x => if x = [7] then some [1, 2, 3] else none⟩ [7] 2
      [] (fun _ => [])).1 = (FetchSource.tempBuffer, [1, 2]) :=
  (claim_C10 ⟨fun x => if x = [7] then some [1, 2, 3] else none⟩ [7]
    [1, 2, 3] 2 2 [] [] (fun _ => []) (fun _ => []) (by simp)).1

end RefreshAndFetchTheorems

end OmniSci
